import Mathlib

/-!
# xornn.cpp: a scalar reverse-mode automatic-differentiation engine

Shallow embedding of `src/main.cpp`.

* A `std::shared_ptr<Tensor>` is an index into a heap (`Heap α`, the list of all
  tensors allocated so far, in allocation order); `std::make_shared` appends.
* The operations are generic in the scalar type `α`, which needs only the
  arithmetic they use. Read in exact arithmetic, `α` is a commutative ring (a field
  where `sigmoid` divides, `ℝ` where derivatives are taken) and `exp` is a
  parameter. Read in the arithmetic of `double`, `α` is `Dbl`, a model of IEEE 754
  binary64 with round-to-nearest-even, on which the same definitions are evaluated
  at concrete inputs.
* `Tensor::backward` is recursive on the graph, so it is embedded with a fuel
  argument bounding the recursion depth; dereferencing an index outside the heap, or
  reading `local_grads[i]` out of bounds, yields `none`.
-/

namespace Xornn

/-! ## Data model -/

/-- The class `Tensor` (main.cpp:7-15): `value`, `grad`, the `parents` pointers
and the `local_grads` with respect to the parents. -/
structure Tensor (α : Type) where
  value : α
  grad : α
  parents : List Nat
  local_grads : List α
deriving DecidableEq

/-- The heap of allocated tensors; a pointer is an index into it. -/
abbrev Heap (α : Type) := List (Tensor α)

/-- The constructor `Tensor(double value) : value(value), grad(0) {}` (main.cpp:15). -/
def Tensor.new {α : Type} [Zero α] (value : α) : Tensor α :=
  { value := value, grad := 0, parents := [], local_grads := [] }

/-- `std::make_shared<Tensor>(v)`: allocate a fresh tensor and return the pointer. -/
def make_shared {α : Type} [Zero α] (h : Heap α) (v : α) : Heap α × Nat :=
  (h ++ [Tensor.new v], h.length)

/-- Read accessor `p->grad` (0 for an index outside the heap). -/
def gradAt {α : Type} [Zero α] (h : Heap α) (p : Nat) : α :=
  match h[p]? with
  | some t => t.grad
  | none => 0

/-- Read accessor `p->value` (0 for an index outside the heap). -/
def valueAt {α : Type} [Zero α] (h : Heap α) (p : Nat) : α :=
  match h[p]? with
  | some t => t.value
  | none => 0

/-! ## Operations -/

/-- The node built by `Tensor::sigmoid` (main.cpp:18-24) for the operand `x`
(pointer) holding `tx`. -/
def sigmoidNode {α : Type} [Field α] (exp : α → α) (x : Nat) (tx : Tensor α) : Tensor α :=
  let s := 1 / (1 + exp (-tx.value))
  let result := Tensor.new s
  let result := { result with parents := result.parents ++ [x] }
  { result with local_grads := result.local_grads ++ [s * (1 - s)] }

/-- `Tensor::sigmoid` (main.cpp:18-24) on the heap. -/
def sigmoid {α : Type} [Field α] (exp : α → α) (h : Heap α) (x : Nat) :
    Option (Heap α × Nat) :=
  match h[x]? with
  | none => none
  | some tx => some (h ++ [sigmoidNode exp x tx], h.length)

/-- The node built by `operator+` (main.cpp:36-43). -/
def addNode {α : Type} [Zero α] [One α] [Add α] (a : Nat) (ta : Tensor α) (b : Nat)
    (tb : Tensor α) : Tensor α :=
  let result := Tensor.new (ta.value + tb.value)
  let result := { result with parents := result.parents ++ [a] }
  let result := { result with local_grads := result.local_grads ++ [1] }
  let result := { result with parents := result.parents ++ [b] }
  { result with local_grads := result.local_grads ++ [1] }

/-- `operator+` (main.cpp:36-43) on the heap. -/
def add {α : Type} [Zero α] [One α] [Add α] (h : Heap α) (a b : Nat) :
    Option (Heap α × Nat) :=
  match h[a]?, h[b]? with
  | some ta, some tb => some (h ++ [addNode a ta b tb], h.length)
  | _, _ => none

/-- The node built by `operator*` (main.cpp:46-53). -/
def mulNode {α : Type} [Zero α] [Mul α] (a : Nat) (ta : Tensor α) (b : Nat)
    (tb : Tensor α) : Tensor α :=
  let result := Tensor.new (ta.value * tb.value)
  let result := { result with parents := result.parents ++ [a] }
  let result := { result with local_grads := result.local_grads ++ [tb.value] }
  let result := { result with parents := result.parents ++ [b] }
  { result with local_grads := result.local_grads ++ [ta.value] }

/-- `operator*` (main.cpp:46-53) on the heap. -/
def mul {α : Type} [Zero α] [Mul α] (h : Heap α) (a b : Nat) :
    Option (Heap α × Nat) :=
  match h[a]?, h[b]? with
  | some ta, some tb => some (h ++ [mulNode a ta b tb], h.length)
  | _, _ => none

/-- The loop of `Tensor::backward` (main.cpp:29-31): iteration `i` calls
`parents[i]->backward(grad * local_grads[i])`; it runs while `i < parents.size()`
and reading `local_grads[i]` past the end is an error. `call` is the recursive
call. -/
def backwardLoop {α : Type} [Mul α] (call : Heap α → Nat → α → Option (Heap α)) (grad : α) :
    List Nat → List α → Heap α → Option (Heap α)
  | [], _, h => some h
  | _ :: _, [], _ => none
  | p :: ps, d :: ds, h =>
    match call h p (grad * d) with
    | none => none
    | some h1 => backwardLoop call grad ps ds h1

/-- `Tensor::backward` (main.cpp:27-32) called on the pointer `self` with the
argument `grad`: `this->grad += grad`, then the loop over the parents. The first
argument bounds the depth of the recursion; `none` is a dangling pointer, an
out-of-bounds `local_grads[i]`, or a recursion deeper than the bound. The loop
reads `parents` and `local_grads` of `this`, which no call of `backward` writes,
so they are read once on entry. -/
def backward {α : Type} [Add α] [Mul α] :
    Nat → Heap α → Nat → α → Option (Heap α)
  | 0, _, _, _ => none
  | fuel + 1, h, self, grad =>
    match h[self]? with
    | none => none
    | some t =>
      backwardLoop (backward fuel) grad t.parents t.local_grads
        (h.set self { t with grad := t.grad + grad })

/-! ## Construction histories

A graph "built by the operations" is the heap produced, from the empty heap, by a
finite sequence of constructor calls; the node built by the `i`-th call has
pointer `i`. -/

/-- One constructor call: a leaf `Tensor(v)`, `a + b`, `a * b` or `x->sigmoid()`. -/
inductive Op (α : Type) where
  | leaf (v : α)
  | add (a b : Nat)
  | mul (a b : Nat)
  | sigmoid (x : Nat)
deriving DecidableEq

/-- Run one constructor call on the heap. -/
def step {α : Type} [Field α] (exp : α → α) (h : Heap α) : Op α → Option (Heap α)
  | .leaf v => some (make_shared h v).1
  | .add a b => (add h a b).map Prod.fst
  | .mul a b => (mul h a b).map Prod.fst
  | .sigmoid x => (sigmoid exp h x).map Prod.fst

/-- Run a sequence of constructor calls from the empty heap. -/
def build {α : Type} [Field α] (exp : α → α) (ops : List (Op α)) : Option (Heap α) :=
  ops.foldlM (step exp) []

/-- The value of node `r` of the graph built by `ops` (0 if there is none). -/
def builtValue {α : Type} [Field α] (exp : α → α) (ops : List (Op α)) (r : Nat) : α :=
  match build exp ops with
  | some h => valueAt h r
  | none => 0

/-! ## Paths in the graph -/

/-- An edge of the graph, as seen from the node holding it: entry `slot` of the
node's `parents` / `local_grads` vectors. -/
structure Edge (α : Type) where
  slot : Nat
  parent : Nat
  deriv : α
deriving DecidableEq

/-- The product of the local derivatives along a path. -/
def pathWeight {α : Type} [Mul α] [One α] (π : List (Edge α)) : α :=
  (π.map Edge.deriv).prod

/-- `IsPath h r n π`: `π` is a directed edge-path from node `r` to node `n`. -/
inductive IsPath {α : Type} (h : Heap α) : Nat → Nat → List (Edge α) → Prop
  | nil (r : Nat) (hr : r < h.length) : IsPath h r r []
  | cons (r n : Nat) (t : Tensor α) (e : Edge α) (π : List (Edge α))
      (ht : h[r]? = some t)
      (hp : t.parents[e.slot]? = some e.parent)
      (hd : t.local_grads[e.slot]? = some e.deriv)
      (hπ : IsPath h e.parent n π) : IsPath h r n (e :: π)

/-- The paths to `n` that start with one of the edges `(ps[j], ds[j])`, slot
numbers counted from `i`; `sub p` lists the paths from `p` to `n`. -/
def pathsLoop {α : Type} (sub : Nat → List (List (Edge α))) :
    Nat → List Nat → List α → List (List (Edge α))
  | _, [], _ => []
  | _, _ :: _, [] => []
  | i, p :: ps, d :: ds =>
    (sub p).map (fun π => Edge.mk i p d :: π) ++ pathsLoop sub (i + 1) ps ds

/-- All directed edge-paths from `r` to `n` of length below the first argument. -/
def paths {α : Type} : Nat → Heap α → Nat → Nat → List (List (Edge α))
  | 0, _, _, _ => []
  | fuel + 1, h, r, n =>
    match h[r]? with
    | none => []
    | some t =>
      (if r = n then [[]] else []) ++
        pathsLoop (fun p => paths fuel h p n) 0 t.parents t.local_grads

/-- The sum over the paths from `r` to `n` of the product of the local
derivatives along the path. -/
def pathSum {α : Type} [Zero α] [One α] [Add α] [Mul α] (fuel : Nat) (h : Heap α)
    (r n : Nat) : α :=
  ((paths fuel h r n).map pathWeight).sum

/-- A well-formed acyclic graph: every node has as many local derivatives as
parents, every parent pointer is valid, and `rank` strictly decreases along every
edge. -/
def Acyclic {α : Type} (h : Heap α) (rank : Nat → Nat) : Prop :=
  ∀ n t, h[n]? = some t →
    t.parents.length = t.local_grads.length ∧
      ∀ p ∈ t.parents, p < h.length ∧ rank p < rank n

/-- The nodes on which the loop of `backward` invokes `backward`, in order;
`call p` lists the invocations made by the call on `p`. -/
def visitsLoop {α : Type} (call : Nat → List Nat) : List Nat → List α → List Nat
  | [], _ => []
  | _ :: _, [] => []
  | p :: ps, _ :: ds => call p ++ visitsLoop call ps ds

/-- The nodes on which `backward` is invoked during a call on `r`, in order (the
nodes touched by the pass), following the recursion of `backward`. -/
def visits {α : Type} : Nat → Heap α → Nat → List Nat
  | 0, _, _ => []
  | fuel + 1, h, r =>
    match h[r]? with
    | none => []
    | some t => r :: visitsLoop (visits fuel h) t.parents t.local_grads

/-- The client's reset `p->grad = 0` (main.cpp:78-81) applied to every pointer
`p` of the list `touched`. -/
def resetGrads {α : Type} [Zero α] (h : Heap α) (touched : List Nat) : Heap α :=
  h.mapIdx (fun n t => if n ∈ touched then { t with grad := 0 } else t)

/-- The diamond graph of the spec: `a = 2`, `b = 3`, `c = a * b`, `d = a + b`,
`e = c * d`, at the pointers 0 to 4. -/
def diamond : Heap ℤ :=
  [ { value := 2, grad := 0, parents := [], local_grads := [] },
    { value := 3, grad := 0, parents := [], local_grads := [] },
    { value := 6, grad := 0, parents := [0, 1], local_grads := [3, 2] },
    { value := 5, grad := 0, parents := [0, 1], local_grads := [1, 1] },
    { value := 30, grad := 0, parents := [2, 3], local_grads := [5, 6] } ]

/-- The end-to-end scenario of the spec: leaves `x1 = 1`, `x2 = 0`, `w1 = 0.5`,
`w2 = -0.3`, `b = 0.1` on an empty heap, then
`h = sigmoid (add (add (multiply x1 w1) (multiply x2 w2)) b)`. Returns the heap
and the pointers `x1`, `w1` and `h`. -/
def scenario {α : Type} [Field α] (exp : α → α) : Option (Heap α × Nat × Nat × Nat) :=
  let (h, x1) := make_shared ([] : Heap α) 1
  let (h, x2) := make_shared h 0
  let (h, w1) := make_shared h 0.5
  let (h, w2) := make_shared h (-0.3)
  let (h, b) := make_shared h 0.1
  (mul h x1 w1).bind fun (h, m1) =>
  (mul h x2 w2).bind fun (h, m2) =>
  (add h m1 m2).bind fun (h, a1) =>
  (add h a1 b).bind fun (h, a2) =>
  (sigmoid exp h a2).bind fun (h, out) => some (h, x1, w1, out)

/-- The construction history of the diamond graph. -/
def diamondOps {α : Type} [Field α] : List (Op α) :=
  [.leaf 2, .leaf 3, .mul 0 1, .add 0 1, .mul 2 3]

/-- The diamond graph over a field. -/
def diamondHeap {α : Type} [Field α] : Heap α :=
  [ { value := 2, grad := 0, parents := [], local_grads := [] },
    { value := 3, grad := 0, parents := [], local_grads := [] },
    { value := 2 * 3, grad := 0, parents := [0, 1], local_grads := [3, 2] },
    { value := 2 + 3, grad := 0, parents := [0, 1], local_grads := [1, 1] },
    { value := 2 * 3 * (2 + 3), grad := 0, parents := [2, 3], local_grads := [2 + 3, 2 * 3] } ]

/-- A construction history with one path: `y = sigmoid (x * w)`, `x = 2`, `w = 3`. -/
def chainOps {α : Type} [Field α] : List (Op α) :=
  [.leaf 2, .leaf 3, .mul 0 1, .sigmoid 2]

/-- The graph built by `chainOps`. -/
def chainHeap {α : Type} [Field α] (exp : α → α) : Heap α :=
  [ { value := 2, grad := 0, parents := [], local_grads := [] },
    { value := 3, grad := 0, parents := [], local_grads := [] },
    { value := 2 * 3, grad := 0, parents := [0, 1], local_grads := [3, 2] },
    { value := 1 / (1 + exp (-(2 * 3))), grad := 0, parents := [2],
      local_grads := [1 / (1 + exp (-(2 * 3))) * (1 - 1 / (1 + exp (-(2 * 3))))] } ]

/-- The operand pointers of a constructor call. -/
def Op.operands {α : Type} : Op α → List Nat
  | .leaf _ => []
  | .add a b => [a, b]
  | .mul a b => [a, b]
  | .sigmoid x => [x]

/-- A construction history in which every call only names operands that already
exist. -/
def WFOps {α : Type} (ops : List (Op α)) : Prop :=
  ∀ (r : Nat) (op : Op α), ops[r]? = some op → ∀ a ∈ op.operands, a < r

/-- The node that a constructor call allocates on the heap `h`. -/
def opNode {α : Type} [Field α] (exp : α → α) (h : Heap α) : Op α → Option (Tensor α)
  | .leaf v => some (Tensor.new v)
  | .add a b =>
    match h[a]?, h[b]? with
    | some ta, some tb => some (addNode a ta b tb)
    | _, _ => none
  | .mul a b =>
    match h[a]?, h[b]? with
    | some ta, some tb => some (mulNode a ta b tb)
    | _, _ => none
  | .sigmoid x =>
    match h[x]? with
    | some tx => some (sigmoidNode exp x tx)
    | none => none

/-- The longest path through one of the edges `(ps[j], ds[j])`; `sub p` is the
length of the longest path from `p`. -/
def heightLoop {α : Type} (sub : Nat → Nat) : List Nat → List α → Nat
  | [], _ => 0
  | _ :: _, [] => 0
  | p :: ps, _ :: ds => max (sub p + 1) (heightLoop sub ps ds)

/-- The length, in edges, of the longest directed path from `r`, among the paths
of length at most the first argument. -/
def height {α : Type} : Nat → Heap α → Nat → Nat
  | 0, _, _ => 0
  | fuel + 1, h, r =>
    match h[r]? with
    | none => 0
    | some t => heightLoop (height fuel h) t.parents t.local_grads

/-- The loop of `backwardLog`, as `backwardLoop`. -/
def backwardLogLoop {α : Type} [Mul α]
    (call : Heap α × List Nat → Nat → α → Option (Heap α × List Nat)) (grad : α) :
    List Nat → List α → Heap α × List Nat → Option (Heap α × List Nat)
  | [], _, st => some st
  | _ :: _, [], _ => none
  | p :: ps, d :: ds, st =>
    match call st p (grad * d) with
    | none => none
    | some st1 => backwardLogLoop call grad ps ds st1

/-- `Tensor::backward` (main.cpp:27-32) instrumented with a log: every invocation
appends the pointer it is invoked on, at the point where it increments
`this->grad`. -/
def backwardLog {α : Type} [Add α] [Mul α] :
    Nat → Heap α × List Nat → Nat → α → Option (Heap α × List Nat)
  | 0, _, _, _ => none
  | fuel + 1, st, self, grad =>
    match st.1[self]? with
    | none => none
    | some t =>
      backwardLogLoop (backwardLog fuel) grad t.parents t.local_grads
        (st.1.set self { t with grad := t.grad + grad }, st.2 ++ [self])

/-! ## The training harness (`main`) -/

/-- The pointers held by the variables `w1`, ..., `b3` of `main`. -/
structure Params where
  w1 : Nat
  w2 : Nat
  w3 : Nat
  w4 : Nat
  b1 : Nat
  b2 : Nat
  w5 : Nat
  w6 : Nat
  b3 : Nat

/-- The initialisation of the weights and biases (main.cpp:64-72): nine leaves
allocated in this order on the empty heap; `r1`, ..., `r9` are the values
`rand() / double(RAND_MAX)`. -/
def initParams {α : Type} [Zero α] (r1 r2 r3 r4 r5 r6 r7 r8 r9 : α) : Heap α × Params :=
  let (h, w1) := make_shared ([] : Heap α) r1
  let (h, w2) := make_shared h r2
  let (h, w3) := make_shared h r3
  let (h, w4) := make_shared h r4
  let (h, b1) := make_shared h r5
  let (h, b2) := make_shared h r6
  let (h, w5) := make_shared h r7
  let (h, w6) := make_shared h r8
  let (h, b3) := make_shared h r9
  (h, { w1 := w1, w2 := w2, w3 := w3, w4 := w4, b1 := b1, b2 := b2, w5 := w5, w6 := w6,
        b3 := b3 })

/-- The pointers of the nine parameters, as `initParams` allocates them. -/
def mainParams : Params :=
  { w1 := 0, w2 := 1, w3 := 2, w4 := 3, b1 := 4, b2 := 5, w5 := 6, w6 := 7, b3 := 8 }

/-- The parameters whose grad is reset (main.cpp:78-81). -/
def Params.resetList (P : Params) : List Nat :=
  [P.w1, P.w2, P.w3, P.w4, P.b1, P.b2, P.w5, P.w6, P.b3]

/-- The parameters in the order of the update statements (main.cpp:104-112). -/
def Params.updateList (P : Params) : List Nat :=
  [P.w1, P.w2, P.w3, P.w4, P.w5, P.w6, P.b1, P.b2, P.b3]

/-- The learning rate `const double lr = 0.5` (main.cpp:61). -/
def lr {α : Type} [Field α] : α := 0.5

/-- The forward pass (main.cpp:84-94): the two input leaves, then
`h1 = (x1 * w1 + x2 * w2 + b1)->sigmoid()`, `h2 = (x1 * w3 + x2 * w4 + b2)->sigmoid()`
and `o1 = (h1 * w5 + h2 * w6 + b3)->sigmoid()`, operands evaluated left to right.
Returns the heap and the pointer `o1`. -/
def forward {α : Type} [Field α] (exp : α → α) (h : Heap α) (P : Params) (in0 in1 : α) :
    Option (Heap α × Nat) :=
  let (h, x1) := make_shared h in0
  let (h, x2) := make_shared h in1
  (mul h x1 P.w1).bind fun (h, m1) =>
  (mul h x2 P.w2).bind fun (h, m2) =>
  (add h m1 m2).bind fun (h, s1) =>
  (add h s1 P.b1).bind fun (h, a1) =>
  (sigmoid exp h a1).bind fun (h, h1) =>
  (mul h x1 P.w3).bind fun (h, m3) =>
  (mul h x2 P.w4).bind fun (h, m4) =>
  (add h m3 m4).bind fun (h, s2) =>
  (add h s2 P.b2).bind fun (h, a2) =>
  (sigmoid exp h a2).bind fun (h, h2) =>
  (mul h h1 P.w5).bind fun (h, m5) =>
  (mul h h2 P.w6).bind fun (h, m6) =>
  (add h m5 m6).bind fun (h, s3) =>
  (add h s3 P.b3).bind fun (h, a3) =>
  sigmoid exp h a3

/-- The loss `0.5 * (o1->value - y) * (o1->value - y)` (main.cpp:98). -/
def lossOf {α : Type} [Field α] (o y : α) : α :=
  0.5 * (o - y) * (o - y)

/-- One update statement `p->value -= lr * p->grad` (main.cpp:104-112). -/
def updateValue {α : Type} [Field α] (h : Heap α) (p : Nat) : Option (Heap α) :=
  match h[p]? with
  | none => none
  | some t => some (h.set p { t with value := t.value - lr * t.grad })

/-- The update of the weights and biases (main.cpp:104-112). -/
def update {α : Type} [Field α] (h : Heap α) (P : Params) : Option (Heap α) :=
  P.updateList.foldlM updateValue h

/-- The body of the training loop for one sample (main.cpp:77-112): reset of the
parameter grads, forward pass, `o1->backward(o1->value - y)`, update. At the end of
the body the temporaries go out of scope and the nodes allocated in this iteration,
which only they own, are destroyed: the heap is cut back to its length on entry. -/
def trainStep {α : Type} [Field α] (exp : α → α) (fuel : Nat) (h : Heap α) (P : Params)
    (in0 in1 y : α) : Option (Heap α) :=
  (forward exp (resetGrads h P.resetList) P in0 in1).bind fun (h1, o1) =>
  (backward fuel h1 o1 (valueAt h1 o1 - y)).bind fun h2 =>
  (update h2 P).map fun h3 => h3.take h.length

/-- The nine parameter leaves, at the pointers of `mainParams`, with the values
`vs` and the grads `g i`, `i` counted from the second argument. -/
def paramHeap {α : Type} : List α → Nat → (Nat → α) → Heap α
  | [], _, _ => []
  | v :: vs, i, g =>
    { value := v, grad := g i, parents := [], local_grads := [] } :: paramHeap vs (i + 1) g

/-- The construction history of the graph of one iteration: the nine parameter
leaves, the two input leaves, and the calls of the forward pass. -/
def iterOps {α : Type} (vs : List α) (in0 in1 : α) : List (Op α) :=
  vs.map Op.leaf ++
    [.leaf in0, .leaf in1,
     .mul 9 0, .mul 10 1, .add 11 12, .add 13 4, .sigmoid 14,
     .mul 9 2, .mul 10 3, .add 16 17, .add 18 5, .sigmoid 19,
     .mul 15 6, .mul 20 7, .add 21 22, .add 23 8, .sigmoid 24]

/-- The loss of one sample as a function of the nine parameter values `vs` (in
pointer order): the forward pass on fresh parameter leaves, then `lossOf`. -/
def lossAt {α : Type} [Field α] (exp : α → α) (vs : List α) (in0 in1 y : α) : α :=
  match forward exp (paramHeap vs 0 (fun _ => 0)) mainParams in0 in1 with
  | some (h, o1) => lossOf (valueAt h o1) y
  | none => 0

/-- `SameShape h h'`: the heap `h'` has the nodes of `h`, each with the value and
the edges (parents and local derivatives) it has in `h`; only `grad` may differ. -/
def SameShape {α : Type} (h h' : Heap α) : Prop :=
  h'.length = h.length ∧
    ∀ (n : Nat) (t : Tensor α), h[n]? = some t →
      ∃ t', h'[n]? = some t' ∧ t'.value = t.value ∧ t'.parents = t.parents ∧
        t'.local_grads = t.local_grads

/-- The heap `h` with `δ n` added to the `grad` of every node `n`. -/
def addGrads {α : Type} [Add α] (h : Heap α) (δ : Nat → α) : Heap α :=
  h.mapIdx (fun n t => { t with grad := t.grad + δ n })

/-! ## The arithmetic of `double`

The fields `value`, `grad` and `local_grads` are C++ `double`s: IEEE 754 binary64,
every operation rounded to nearest, ties to even. `Dbl` models them bit for bit
(NaN payloads apart), so that the definitions above can be run on concrete inputs
in the arithmetic of the program. -/

/-- IEEE 754 binary64 (`double`): NaN, the two infinities, and the finite values
`(-1)^neg * m * 2^(e - 1074)` with `m < 2^53`, `e ≤ 2045`, and `2^52 ≤ m` unless
`e = 0` (subnormals and the two zeros). -/
inductive Dbl where
  | nan
  | inf (neg : Bool)
  | fin (neg : Bool) (m : Nat) (e : Nat)
deriving DecidableEq

/-- The position of the leading bit: `⌊log₂ n⌋` for `0 < n < 2^8192` (0 for
`n = 0`), found by bisection on the exponent. -/
def ilog2 (n : Nat) : Nat :=
  [4096, 2048, 1024, 512, 256, 128, 64, 32, 16, 8, 4, 2, 1].foldl
    (fun acc s => if 2 ^ (acc + s) ≤ n then acc + s else acc) 0

/-- Round the positive rational `n / d` to the nearest double, ties to even
(the default rounding mode), with the sign `neg`. -/
def Dbl.round (neg : Bool) (n d : Nat) : Dbl :=
  let num := n * 2 ^ 1074
  let c := (ilog2 n + 1074) - (ilog2 d + 52)
  let e := if 0 < c ∧ num / (d * 2 ^ c) < 2 ^ 52 then c - 1 else c
  let den := d * 2 ^ e
  let q := num / den
  let r := num % den
  let m := if den < 2 * r ∨ (2 * r = den ∧ q % 2 = 1) then q + 1 else q
  if m = 2 ^ 53 then (if 2045 ≤ e then Dbl.inf neg else Dbl.fin neg (2 ^ 52) (e + 1))
  else if 2045 < e then Dbl.inf neg
  else Dbl.fin neg m e

/-- Multiplication of doubles: the exact product, rounded. -/
def Dbl.mul : Dbl → Dbl → Dbl
  | .nan, _ => .nan
  | _, .nan => .nan
  | .inf s, .inf t => .inf (xor s t)
  | .inf s, .fin t k _ => if k = 0 then .nan else .inf (xor s t)
  | .fin s m _, .inf t => if m = 0 then .nan else .inf (xor s t)
  | .fin s m e, .fin t k f =>
    if m * k = 0 then .fin (xor s t) 0 0
    else Dbl.round (xor s t) (m * k * 2 ^ (e + f)) (2 ^ 2148)

/-- Addition of doubles: the exact sum, rounded. -/
def Dbl.add : Dbl → Dbl → Dbl
  | .nan, _ => .nan
  | _, .nan => .nan
  | .inf s, .inf t => if s = t then .inf s else .nan
  | .inf s, .fin _ _ _ => .inf s
  | .fin _ _ _, .inf t => .inf t
  | .fin s m e, .fin t k f =>
    let a := m * 2 ^ e
    let b := k * 2 ^ f
    if s = t then (if a + b = 0 then .fin s 0 0 else Dbl.round s (a + b) (2 ^ 1074))
    else if a = b then .fin false 0 0
    else if b < a then Dbl.round s (a - b) (2 ^ 1074)
    else Dbl.round t (b - a) (2 ^ 1074)

/-- The double nearest to the decimal literal `n / d` (`n`, `d` natural numbers). -/
def Dbl.lit (n d : Nat) : Dbl :=
  if n = 0 then .fin false 0 0 else Dbl.round false n d

instance : Zero Dbl := ⟨Dbl.lit 0 1⟩
instance : One Dbl := ⟨Dbl.lit 1 1⟩
instance : Add Dbl := ⟨Dbl.add⟩
instance : Mul Dbl := ⟨Dbl.mul⟩

/-- The graph `u = 5`, `v = 0.3`, `w = 0.2`, `m = u * v`, `n = m * w` built by the
constructors in double arithmetic (pointers 0 to 4); returns the heap and the
pointer `n`. -/
def productChain : Option (Heap Dbl × Nat) :=
  let (h, u) := make_shared ([] : Heap Dbl) (Dbl.lit 5 1)
  let (h, v) := make_shared h (Dbl.lit 3 10)
  let (h, w) := make_shared h (Dbl.lit 2 10)
  (mul h u v).bind fun (h, m) => mul h m w

/-- The graph `a = 3`, `b = 0.1`, `c = a * b` built by the constructors in double
arithmetic (pointers 0, 1, 2); returns the heap and the pointer `c`. -/
def scaledLeaf : Option (Heap Dbl × Nat) :=
  let (h, a) := make_shared ([] : Heap Dbl) (Dbl.lit 3 1)
  let (h, b) := make_shared h (Dbl.lit 1 10)
  mul h a b

/-- The graph `a = 1`, `b = 0.2`, `d = 0.1`, `p = a * b`, `q = a * d`, `e = p + q`
built by the constructors in double arithmetic (pointers 0 to 5), in which two
paths lead from `e` to `a`; returns the heap and the pointer `e`. -/
def twoPaths : Option (Heap Dbl × Nat) :=
  let (h, a) := make_shared ([] : Heap Dbl) (Dbl.lit 1 1)
  let (h, b) := make_shared h (Dbl.lit 2 10)
  let (h, d) := make_shared h (Dbl.lit 1 10)
  (mul h a b).bind fun (h, p) =>
  (mul h a d).bind fun (h, q) => add h p q

/-! ## The network of `main` in closed form -/

/-- The logistic function, `sigmoid(z) = 1 / (1 + exp(-z))`. -/
def logistic {α : Type} [Field α] (exp : α → α) (z : α) : α :=
  1 / (1 + exp (-z))

/-- The output of the network as a closed-form expression in the nine parameters
and the two inputs, written from the formula rather than from the code:
`o = sigmoid(sigmoid(x1*w1 + x2*w2 + b1)*w5 + sigmoid(x1*w3 + x2*w4 + b2)*w6 + b3)`.
It is compared below with what the forward pass of `main` builds. -/
def netOutput {α : Type} [Field α] (exp : α → α) (w1 w2 w3 w4 b1 b2 w5 w6 b3 x1 x2 : α) : α :=
  logistic exp
    (logistic exp (x1 * w1 + x2 * w2 + b1) * w5 + logistic exp (x1 * w3 + x2 * w4 + b2) * w6 + b3)

/-! ## Basic facts -/

section Basic

variable {α : Type}

@[simp] theorem sigmoidNode_eq [Field α] (exp : α → α) (x : Nat) (tx : Tensor α) :
    sigmoidNode exp x tx =
      { value := 1 / (1 + exp (-tx.value)), grad := 0, parents := [x],
        local_grads := [1 / (1 + exp (-tx.value)) * (1 - 1 / (1 + exp (-tx.value)))] } :=
  rfl

@[simp] theorem addNode_eq [Zero α] [One α] [Add α] (a b : Nat) (ta tb : Tensor α) :
    addNode a ta b tb =
      { value := ta.value + tb.value, grad := 0, parents := [a, b], local_grads := [1, 1] } :=
  rfl

@[simp] theorem mulNode_eq [Zero α] [Mul α] (a b : Nat) (ta tb : Tensor α) :
    mulNode a ta b tb =
      { value := ta.value * tb.value, grad := 0, parents := [a, b],
        local_grads := [tb.value, ta.value] } :=
  rfl

@[simp] theorem length_addGrads [Add α] (h : Heap α) (δ : Nat → α) :
    (addGrads h δ).length = h.length := by
  simp [addGrads]

@[simp] theorem getElem?_addGrads [Add α] (h : Heap α) (δ : Nat → α) (n : Nat) :
    (addGrads h δ)[n]? = (h[n]?).map (fun t => { t with grad := t.grad + δ n }) := by
  simp [addGrads]

theorem addGrads_addGrads [AddSemigroup α] (h : Heap α) (δ ε : Nat → α) :
    addGrads (addGrads h δ) ε = addGrads h (fun n => δ n + ε n) := by
  apply List.ext_getElem?
  intro n
  simp only [getElem?_addGrads]
  cases h[n]? <;> simp [add_assoc]

theorem addGrads_zero [AddMonoid α] (h : Heap α) (δ : Nat → α) (hδ : ∀ n, n < h.length → δ n = 0) :
    addGrads h δ = h := by
  apply List.ext_getElem?
  intro n
  simp only [getElem?_addGrads]
  by_cases hn : n < h.length
  · rw [List.getElem?_eq_getElem hn]
    simp [hδ n hn]
  · rw [List.getElem?_eq_none (by omega)]
    rfl

theorem addGrads_congr [Add α] (h : Heap α) (δ ε : Nat → α) (hδ : ∀ n, n < h.length → δ n = ε n) :
    addGrads h δ = addGrads h ε := by
  apply List.ext_getElem?
  intro n
  simp only [getElem?_addGrads]
  by_cases hn : n < h.length
  · rw [List.getElem?_eq_getElem hn]
    simp [hδ n hn]
  · rw [List.getElem?_eq_none (by omega)]
    rfl

theorem set_eq_addGrads [AddMonoid α] (h : Heap α) (r : Nat) (t : Tensor α) (s : α)
    (ht : h[r]? = some t) :
    h.set r { t with grad := t.grad + s } = addGrads h (fun n => if r = n then s else 0) := by
  apply List.ext_getElem?
  intro n
  simp only [getElem?_addGrads, List.getElem?_set]
  by_cases hrn : r = n
  · subst hrn
    have hlt : r < h.length := by
      rcases List.getElem?_eq_some_iff.mp ht with ⟨hlt, _⟩
      exact hlt
    simp [hlt, ht]
  · simp only [hrn, if_false]
    cases h[n]? <;> simp

theorem gradAt_addGrads [AddMonoid α] (h : Heap α) (δ : Nat → α) (n : Nat) (hn : n < h.length) :
    gradAt (addGrads h δ) n = gradAt h n + δ n := by
  simp [gradAt, List.getElem?_eq_getElem hn]

theorem valueAt_addGrads [AddMonoid α] (h : Heap α) (δ : Nat → α) (n : Nat) :
    valueAt (addGrads h δ) n = valueAt h n := by
  simp only [valueAt, getElem?_addGrads]
  cases h[n]? <;> rfl

end Basic

/-! ## Paths: weights, independence of `grad`, independence of the depth bound -/

section Paths

variable {α : Type}

theorem pathsLoop_congr (sub1 sub2 : Nat → List (List (Edge α))) :
    ∀ (ps : List Nat) (ds : List α) (i : Nat), (∀ p ∈ ps, sub1 p = sub2 p) →
      pathsLoop sub1 i ps ds = pathsLoop sub2 i ps ds
  | [], _, _, _ => by simp [pathsLoop]
  | _ :: _, [], _, _ => by simp [pathsLoop]
  | p :: ps, d :: ds, i, hsub => by
    simp only [pathsLoop]
    rw [hsub p (List.mem_cons_self _ _),
      pathsLoop_congr sub1 sub2 ps ds (i + 1) (fun q hq => hsub q (List.mem_cons_of_mem _ hq))]

theorem paths_addGrads [Add α] (h : Heap α) (δ : Nat → α) (n : Nat) :
    ∀ (fuel r : Nat), paths fuel (addGrads h δ) r n = paths fuel h r n
  | 0, _ => rfl
  | fuel + 1, r => by
    simp only [paths, getElem?_addGrads]
    cases h[r]? with
    | none => rfl
    | some t =>
      simp only [Option.map_some']
      congr 1
      exact pathsLoop_congr _ _ _ _ _ (fun p _ => paths_addGrads h δ n fuel p)

theorem pathSum_addGrads [CommRing α] (h : Heap α) (δ : Nat → α) (fuel r n : Nat) :
    pathSum fuel (addGrads h δ) r n = pathSum fuel h r n := by
  simp [pathSum, paths_addGrads]

theorem acyclic_addGrads [Add α] (h : Heap α) (δ : Nat → α) (rank : Nat → Nat)
    (hac : Acyclic h rank) : Acyclic (addGrads h δ) rank := by
  intro n t ht
  simp only [getElem?_addGrads] at ht
  cases hn : h[n]? with
  | none => simp [hn] at ht
  | some u =>
    simp only [hn, Option.map_some', Option.some.injEq] at ht
    subst ht
    simpa using hac n u hn

theorem paths_fuel (h : Heap α) (rank : Nat → Nat) (hac : Acyclic h rank) (n : Nat) :
    ∀ (f g r : Nat), rank r < f → rank r < g → paths f h r n = paths g h r n
  | 0, _, _, hf, _ => absurd hf (Nat.not_lt_zero _)
  | _ + 1, 0, _, _, hg => absurd hg (Nat.not_lt_zero _)
  | f + 1, g + 1, r, hf, hg => by
    simp only [paths]
    cases hr : h[r]? with
    | none => rfl
    | some t =>
      simp only []
      congr 1
      apply pathsLoop_congr
      intro p hp
      have hlt := ((hac r t hr).2 p hp).2
      exact paths_fuel h rank hac n f g p (by omega) (by omega)

theorem pathSum_fuel [CommRing α] (h : Heap α) (rank : Nat → Nat) (hac : Acyclic h rank)
    (f g r n : Nat) (hf : rank r < f) (hg : rank r < g) :
    pathSum f h r n = pathSum g h r n := by
  simp [pathSum, paths_fuel h rank hac n f g r hf hg]

theorem sum_map_cons [CommRing α] (e : Edge α) (l : List (List (Edge α))) :
    ((l.map (fun π => e :: π)).map pathWeight).sum = e.deriv * (l.map pathWeight).sum := by
  induction l with
  | nil => simp
  | cons π l ih =>
    simp only [List.map_cons, List.sum_cons, ih, mul_add]
    simp [pathWeight]

/-- The sum of the weights of the paths that start with one of the listed edges. -/
theorem sum_pathsLoop_cons [CommRing α] (sub : Nat → List (List (Edge α))) (i p : Nat)
    (ps : List Nat) (d : α) (ds : List α) :
    ((pathsLoop sub i (p :: ps) (d :: ds)).map pathWeight).sum =
      d * ((sub p).map pathWeight).sum + ((pathsLoop sub (i + 1) ps ds).map pathWeight).sum := by
  simp only [pathsLoop, List.map_append, List.sum_append, sum_map_cons]

theorem pathSum_succ [CommRing α] (fuel : Nat) (h : Heap α) (r n : Nat) (t : Tensor α)
    (ht : h[r]? = some t) :
    pathSum (fuel + 1) h r n =
      (if r = n then 1 else 0) +
        ((pathsLoop (fun p => paths fuel h p n) 0 t.parents t.local_grads).map pathWeight).sum := by
  simp only [pathSum, paths, ht, List.map_append, List.sum_append]
  split <;> simp [pathWeight]

theorem mem_pathsLoop_iff (sub : Nat → List (List (Edge α))) (π : List (Edge α)) :
    ∀ (ps : List Nat) (ds : List α) (i : Nat),
      π ∈ pathsLoop sub i ps ds ↔
        ∃ e π', π = e :: π' ∧ i ≤ e.slot ∧ ps[e.slot - i]? = some e.parent ∧
          ds[e.slot - i]? = some e.deriv ∧ π' ∈ sub e.parent
  | [], _, _ => by simp [pathsLoop]
  | _ :: _, [], _ => by simp [pathsLoop]
  | p :: ps, d :: ds, i => by
    simp only [pathsLoop, List.mem_append, List.mem_map, mem_pathsLoop_iff sub π ps ds (i + 1)]
    constructor
    · rintro (⟨π', hπ', rfl⟩ | ⟨e, π', rfl, hle, hp, hd, hπ'⟩)
      · exact ⟨⟨i, p, d⟩, π', rfl, le_refl _, by simp, by simp, hπ'⟩
      · refine ⟨e, π', rfl, by omega, ?_, ?_, hπ'⟩
        · have : e.slot - i = (e.slot - (i + 1)) + 1 := by omega
          rw [this, List.getElem?_cons_succ]
          exact hp
        · have : e.slot - i = (e.slot - (i + 1)) + 1 := by omega
          rw [this, List.getElem?_cons_succ]
          exact hd
    · rintro ⟨e, π', rfl, hle, hp, hd, hπ'⟩
      by_cases hi : e.slot = i
      · left
        rw [hi] at hp hd
        simp only [Nat.sub_self, List.getElem?_cons_zero, Option.some.injEq] at hp hd
        refine ⟨π', ?_, ?_⟩
        · rw [hp]
          exact hπ'
        · cases e
          simp_all
      · right
        have : e.slot - i = (e.slot - (i + 1)) + 1 := by omega
        rw [this, List.getElem?_cons_succ] at hp hd
        exact ⟨e, π', rfl, by omega, hp, hd, hπ'⟩

theorem nodup_pathsLoop (sub : Nat → List (List (Edge α))) (hsub : ∀ p, (sub p).Nodup) :
    ∀ (ps : List Nat) (ds : List α) (i : Nat), (pathsLoop sub i ps ds).Nodup
  | [], _, _ => by simp [pathsLoop]
  | _ :: _, [], _ => by simp [pathsLoop]
  | p :: ps, d :: ds, i => by
    simp only [pathsLoop]
    rw [List.nodup_append]
    refine ⟨?_, nodup_pathsLoop sub hsub ps ds (i + 1), ?_⟩
    · exact (hsub p).map (fun a b hab => by simpa using hab)
    · intro π h1 h2
      rcases List.mem_map.mp h1 with ⟨π', _, rfl⟩
      rcases (mem_pathsLoop_iff sub _ ps ds (i + 1)).mp h2 with ⟨e, π'', heq, hle, _⟩
      have : e.slot = i := by
        have := (List.cons.inj heq).1
        rw [← this]
      omega

theorem nodup_paths (h : Heap α) (n : Nat) : ∀ (fuel r : Nat), (paths fuel h r n).Nodup
  | 0, _ => by simp [paths]
  | fuel + 1, r => by
    simp only [paths]
    cases h[r]? with
    | none => simp
    | some t =>
      simp only []
      rw [List.nodup_append]
      refine ⟨by split <;> simp, nodup_pathsLoop _ (fun p => nodup_paths h n fuel p) _ _ _, ?_⟩
      intro π h1 h2
      rcases (mem_pathsLoop_iff _ _ _ _ _).mp h2 with ⟨e, π', rfl, _⟩
      split at h1 <;> simp at h1

theorem isPath_of_mem_paths (h : Heap α) (n : Nat) :
    ∀ (fuel r : Nat) (π : List (Edge α)), π ∈ paths fuel h r n → IsPath h r n π
  | 0, _, _, hπ => by simp [paths] at hπ
  | fuel + 1, r, π, hπ => by
    simp only [paths] at hπ
    cases hr : h[r]? with
    | none => simp [hr] at hπ
    | some t =>
      simp only [hr, List.mem_append] at hπ
      rcases hπ with hπ | hπ
      · split at hπ
        · rename_i hrn
          simp only [List.mem_singleton] at hπ
          subst hrn hπ
          exact IsPath.nil r (List.getElem?_eq_some_iff.mp hr).1
        · simp at hπ
      · rcases (mem_pathsLoop_iff _ _ _ _ _).mp hπ with ⟨e, π', rfl, _, hp, hd, hπ'⟩
        exact IsPath.cons r n t e π' hr (by simpa using hp) (by simpa using hd)
          (isPath_of_mem_paths h n fuel e.parent π' hπ')

theorem mem_paths_of_isPath (h : Heap α) (rank : Nat → Nat) (hac : Acyclic h rank)
    (r n : Nat) (π : List (Edge α)) (hπ : IsPath h r n π) :
    ∀ fuel, rank r < fuel → π ∈ paths fuel h r n := by
  induction hπ with
  | nil r hr =>
    intro fuel hf
    cases fuel with
    | zero => omega
    | succ fuel => simp [paths, List.getElem?_eq_getElem hr]
  | cons r n t e π ht hp hd _ ih =>
    intro fuel hf
    cases fuel with
    | zero => omega
    | succ fuel =>
      simp only [paths, ht, List.mem_append]
      right
      have hmem : e.parent ∈ t.parents := List.getElem?_mem hp
      have hlt := ((hac r t ht).2 e.parent hmem).2
      exact (mem_pathsLoop_iff _ _ _ _ _).mpr
        ⟨e, π, rfl, Nat.zero_le _, by simpa using hp, by simpa using hd, ih fuel (by omega)⟩

theorem mem_paths_iff (h : Heap α) (rank : Nat → Nat) (hac : Acyclic h rank)
    (fuel r n : Nat) (hf : rank r < fuel) (π : List (Edge α)) :
    π ∈ paths fuel h r n ↔ IsPath h r n π :=
  ⟨isPath_of_mem_paths h n fuel r π, fun hπ => mem_paths_of_isPath h rank hac r n π hπ fuel hf⟩

end Paths

/-! ## The effect of `backward` -/

section Backward

variable {α : Type} [CommRing α]

theorem backwardLoop_eq (h : Heap α) (rank : Nat → Nat) (fuel : Nat) (s : α)
    (ih : ∀ (h1 : Heap α), Acyclic h1 rank → ∀ (p : Nat) (g : α), p < h1.length → rank p < fuel →
      backward fuel h1 p g = some (addGrads h1 (fun n => g * pathSum fuel h1 p n)))
    (hac : Acyclic h rank) :
    ∀ (ps : List Nat) (ds : List α) (i : Nat) (δ : Nat → α), ps.length = ds.length →
      (∀ p ∈ ps, p < h.length ∧ rank p < fuel) →
      backwardLoop (backward fuel) s ps ds (addGrads h δ) =
        some (addGrads h (fun n => δ n +
          s * ((pathsLoop (fun p => paths fuel h p n) i ps ds).map pathWeight).sum))
  | [], _, _, _, _, _ => by simp [backwardLoop, pathsLoop]
  | _ :: _, [], _, _, hlen, _ => by simp at hlen
  | p :: ps, d :: ds, i, δ, hlen, hps => by
    have hp := hps p (List.mem_cons_self _ _)
    have h1 := ih (addGrads h δ) (acyclic_addGrads h δ rank hac) p (s * d)
      (by simpa using hp.1) hp.2
    simp only [backwardLoop, h1, addGrads_addGrads]
    rw [backwardLoop_eq h rank fuel s ih hac ps ds (i + 1) _ (by simpa using hlen)
      (fun q hq => hps q (List.mem_cons_of_mem _ hq))]
    congr 1
    apply addGrads_congr
    intro n _
    rw [sum_pathsLoop_cons, pathSum_addGrads]
    simp only [pathSum]
    ring

/-- The whole effect of `backward`: on a well-formed acyclic graph, with a depth
bound above the rank of the root, the call returns and has added to every `grad`
the seed times the sum of the path weights. -/
theorem backward_eq (rank : Nat → Nat) :
    ∀ (fuel : Nat) (h : Heap α), Acyclic h rank → ∀ (r : Nat) (s : α), r < h.length →
      rank r < fuel →
      backward fuel h r s = some (addGrads h (fun n => s * pathSum fuel h r n))
  | 0, _, _, _, _, _, hf => absurd hf (Nat.not_lt_zero _)
  | fuel + 1, h, hac, r, s, hr, hf => by
    have ht : h[r]? = some h[r] := List.getElem?_eq_getElem hr
    simp only [backward, ht]
    rw [set_eq_addGrads h r h[r] s ht]
    have hwf := hac r h[r] ht
    rw [backwardLoop_eq h rank fuel s (fun h1 hac1 p g hp hfp => backward_eq rank fuel h1 hac1 p g hp hfp)
      hac h[r].parents h[r].local_grads 0 _ hwf.1
      (fun p hp => ⟨(hwf.2 p hp).1, by have := (hwf.2 p hp).2; omega⟩)]
    congr 1
    apply addGrads_congr
    intro n _
    rw [pathSum_succ fuel h r n h[r] ht]
    split <;> ring

/-- The result of `backward` with any sufficient depth bound. -/
theorem backward_eq_rank (rank : Nat → Nat) (fuel : Nat) (h : Heap α) (hac : Acyclic h rank)
    (r : Nat) (s : α) (hr : r < h.length) (hf : rank r < fuel) :
    backward fuel h r s = some (addGrads h (fun n => s * pathSum (rank r + 1) h r n)) := by
  rw [backward_eq rank fuel h hac r s hr hf]
  congr 1
  apply addGrads_congr
  intro n _
  rw [pathSum_fuel h rank hac fuel (rank r + 1) r n hf (Nat.lt_succ_self _)]

end Backward

section BackwardMono

variable {α : Type} [Mul α]

theorem backwardLoop_mono (call1 call2 : Heap α → Nat → α → Option (Heap α)) (s : α)
    (hcall : ∀ h p g h', call1 h p g = some h' → call2 h p g = some h') :
    ∀ (ps : List Nat) (ds : List α) (h h' : Heap α),
      backwardLoop call1 s ps ds h = some h' → backwardLoop call2 s ps ds h = some h'
  | [], _, _, _, hl => by simpa [backwardLoop] using hl
  | _ :: _, [], _, _, hl => by simp [backwardLoop] at hl
  | p :: ps, d :: ds, h, h', hl => by
    simp only [backwardLoop] at hl ⊢
    cases h1 : call1 h p (s * d) with
    | none => simp [h1] at hl
    | some h2 =>
      simp only [h1] at hl
      simp only [hcall h p (s * d) h2 h1]
      exact backwardLoop_mono call1 call2 s hcall ps ds h2 h' hl

variable [Add α]

/-- A larger depth bound does not change the result of `backward`. -/
theorem backward_succ :
    ∀ (fuel : Nat) (h : Heap α) (r : Nat) (s : α) (h' : Heap α),
      backward fuel h r s = some h' → backward (fuel + 1) h r s = some h'
  | 0, _, _, _, _, hb => by simp [backward] at hb
  | fuel + 1, h, r, s, h', hb => by
    rw [backward] at hb ⊢
    cases ht : h[r]? with
    | none => simp [ht] at hb
    | some t =>
      simp only [ht] at hb ⊢
      exact backwardLoop_mono _ _ s (backward_succ fuel) _ _ _ _ hb

theorem backward_mono (f g : Nat) (hfg : f ≤ g) (h : Heap α) (r : Nat) (s : α) (h' : Heap α)
    (hb : backward f h r s = some h') : backward g h r s = some h' := by
  induction hfg with
  | refl => exact hb
  | step _ ih => exact backward_succ _ h r s h' ih

/-- Whatever the depth bound, `backward` returns at most one heap. -/
theorem backward_det (f g : Nat) (h : Heap α) (r : Nat) (s : α) (h1 h2 : Heap α)
    (hf : backward f h r s = some h1) (hg : backward g h r s = some h2) : h1 = h2 := by
  have e1 := backward_mono f (max f g) (le_max_left _ _) h r s h1 hf
  have e2 := backward_mono g (max f g) (le_max_right _ _) h r s h2 hg
  rw [e1] at e2
  exact Option.some.inj e2

end BackwardMono

section Untouched

theorem pathsLoop_eq_nil_of_not_mem_visitsLoop {β : Type} (fuel : Nat) (h : Heap β) (n : Nat)
    (ih : ∀ p, n ∉ visits fuel h p → paths fuel h p n = []) :
    ∀ (ps : List Nat) (ds : List β) (i : Nat), n ∉ visitsLoop (visits fuel h) ps ds →
      pathsLoop (fun p => paths fuel h p n) i ps ds = []
  | [], _, _, _ => by simp [pathsLoop]
  | _ :: _, [], _, _ => by simp [pathsLoop]
  | p :: ps, d :: ds, i, hn => by
    simp only [visitsLoop, List.mem_append, not_or] at hn
    simp only [pathsLoop, ih p hn.1, List.map_nil, List.nil_append]
    exact pathsLoop_eq_nil_of_not_mem_visitsLoop fuel h n ih ps ds (i + 1) hn.2

/-- A node that the pass does not touch is the end of no path from the root. -/
theorem paths_eq_nil_of_not_mem_visits {β : Type} (h : Heap β) (n : Nat) :
    ∀ (fuel r : Nat), n ∉ visits fuel h r → paths fuel h r n = []
  | 0, _, _ => rfl
  | fuel + 1, r, hn => by
    simp only [paths]
    simp only [visits] at hn
    cases ht : h[r]? with
    | none => rfl
    | some t =>
      simp only [ht, List.mem_cons, not_or] at hn
      simp only []
      rw [pathsLoop_eq_nil_of_not_mem_visitsLoop fuel h n
        (paths_eq_nil_of_not_mem_visits h n fuel) _ _ _ hn.2]
      simp [Ne.symm hn.1]

end Untouched

/-! ## Graphs built by the constructors -/

section Build

variable {α : Type} [Field α]

theorem step_eq_opNode (exp : α → α) (h : Heap α) (op : Op α) :
    step exp h op = (opNode exp h op).map (fun t => h ++ [t]) := by
  cases op with
  | leaf v => rfl
  | add a b =>
    simp only [step, add, opNode]
    cases h[a]? <;> cases h[b]? <;> rfl
  | mul a b =>
    simp only [step, mul, opNode]
    cases h[a]? <;> cases h[b]? <;> rfl
  | sigmoid x =>
    simp only [step, sigmoid, opNode]
    cases h[x]? <;> rfl

theorem build_snoc (exp : α → α) (ops : List (Op α)) (op : Op α) :
    build exp (ops ++ [op]) = (build exp ops).bind (fun h => step exp h op) := by
  simp only [build, List.foldlM_append]
  cases List.foldlM (step exp) [] ops with
  | none => rfl
  | some h =>
    simp only [Option.bind_eq_bind, Option.some_bind, List.foldlM_cons, List.foldlM_nil]
    cases step exp h op <;> rfl

theorem opNode_operands_lt (exp : α → α) (h : Heap α) (op : Op α) (t : Tensor α)
    (ht : opNode exp h op = some t) : ∀ a ∈ op.operands, a < h.length := by
  have key : ∀ a, (∃ u, h[a]? = some u) → a < h.length := by
    rintro a ⟨u, hu⟩
    exact (List.getElem?_eq_some_iff.mp hu).1
  cases op with
  | leaf v => simp [Op.operands]
  | add a b =>
    simp only [opNode] at ht
    cases ha : h[a]? <;> cases hb : h[b]? <;> simp [ha, hb] at ht
    intro c hc
    simp only [Op.operands, List.mem_cons, List.mem_singleton, List.not_mem_nil, or_false] at hc
    rcases hc with rfl | rfl
    · exact key _ ⟨_, ha⟩
    · exact key _ ⟨_, hb⟩
  | mul a b =>
    simp only [opNode] at ht
    cases ha : h[a]? <;> cases hb : h[b]? <;> simp [ha, hb] at ht
    intro c hc
    simp only [Op.operands, List.mem_cons, List.mem_singleton, List.not_mem_nil, or_false] at hc
    rcases hc with rfl | rfl
    · exact key _ ⟨_, ha⟩
    · exact key _ ⟨_, hb⟩
  | sigmoid x =>
    simp only [opNode] at ht
    cases hx : h[x]? <;> simp [hx] at ht
    intro c hc
    simp only [Op.operands, List.mem_singleton] at hc
    subst hc
    exact key _ ⟨_, hx⟩

theorem opNode_append (exp : α → α) (h l : Heap α) (op : Op α)
    (hop : ∀ a ∈ op.operands, a < h.length) : opNode exp (h ++ l) op = opNode exp h op := by
  cases op with
  | leaf v => rfl
  | add a b =>
    simp only [opNode]
    rw [List.getElem?_append_left (hop a (by simp [Op.operands])),
      List.getElem?_append_left (hop b (by simp [Op.operands]))]
  | mul a b =>
    simp only [opNode]
    rw [List.getElem?_append_left (hop a (by simp [Op.operands])),
      List.getElem?_append_left (hop b (by simp [Op.operands]))]
  | sigmoid x =>
    simp only [opNode]
    rw [List.getElem?_append_left (hop x (by simp [Op.operands]))]

theorem opNode_isSome (exp : α → α) (h : Heap α) (op : Op α)
    (hop : ∀ a ∈ op.operands, a < h.length) : ∃ t, opNode exp h op = some t := by
  cases op with
  | leaf v => exact ⟨_, rfl⟩
  | add a b =>
    simp only [opNode]
    rw [List.getElem?_eq_getElem (hop a (by simp [Op.operands])),
      List.getElem?_eq_getElem (hop b (by simp [Op.operands]))]
    exact ⟨_, rfl⟩
  | mul a b =>
    simp only [opNode]
    rw [List.getElem?_eq_getElem (hop a (by simp [Op.operands])),
      List.getElem?_eq_getElem (hop b (by simp [Op.operands]))]
    exact ⟨_, rfl⟩
  | sigmoid x =>
    simp only [opNode]
    rw [List.getElem?_eq_getElem (hop x (by simp [Op.operands]))]
    exact ⟨_, rfl⟩

/-- What a built heap looks like: one node per call, each the node that its call
allocates, with operands allocated earlier. -/
theorem build_spec (exp : α → α) :
    ∀ (ops : List (Op α)) (h : Heap α), build exp ops = some h →
      h.length = ops.length ∧
        ∀ r op, ops[r]? = some op →
          (∀ a ∈ op.operands, a < r) ∧ h[r]? = opNode exp h op := by
  intro ops
  induction ops using List.reverseRecOn with
  | nil =>
    intro h hb
    simp only [build, List.foldlM_nil] at hb
    cases hb
    simp
  | append_singleton ops op ih =>
    intro h' hb
    rw [build_snoc] at hb
    cases hops : build exp ops with
    | none => simp [hops] at hb
    | some h =>
      simp only [hops, Option.some_bind, step_eq_opNode] at hb
      cases hnode : opNode exp h op with
      | none => simp [hnode] at hb
      | some t =>
        simp only [hnode, Option.map_some', Option.some.injEq] at hb
        subst hb
        obtain ⟨hlen, hnodes⟩ := ih h hops
        have hoplt := opNode_operands_lt exp h op t hnode
        refine ⟨by simp [hlen], ?_⟩
        intro r op' hr
        by_cases hrl : r < ops.length
        · rw [List.getElem?_append_left hrl] at hr
          obtain ⟨h1, h2⟩ := hnodes r op' hr
          refine ⟨h1, ?_⟩
          rw [List.getElem?_append_left (by omega),
            opNode_append exp h [t] op' (fun a ha => by have := h1 a ha; omega)]
          exact h2
        · have hr' : r = ops.length := by
            have := (List.getElem?_eq_some_iff.mp hr).1
            simp at this
            omega
          subst hr'
          simp only [List.getElem?_concat_length, Option.some.injEq] at hr
          subst hr
          refine ⟨fun a ha => by have := hoplt a ha; omega, ?_⟩
          rw [opNode_append exp h [t] op hoplt, hnode, ← hlen]
          simp

theorem wfOps_of_build (exp : α → α) (ops : List (Op α)) (h : Heap α)
    (hb : build exp ops = some h) : WFOps ops :=
  fun r op hr => ((build_spec exp ops h hb).2 r op hr).1

theorem build_of_wfOps (exp : α → α) :
    ∀ (ops : List (Op α)), WFOps ops → ∃ h, build exp ops = some h := by
  intro ops
  induction ops using List.reverseRecOn with
  | nil => exact fun _ => ⟨[], rfl⟩
  | append_singleton ops op ih =>
    intro hwf
    have hwf' : WFOps ops := by
      intro r op' hr a ha
      have hrl := (List.getElem?_eq_some_iff.mp hr).1
      exact hwf r op' (by rw [List.getElem?_append_left hrl]; exact hr) a ha
    obtain ⟨h, hb⟩ := ih hwf'
    have hlen := (build_spec exp ops h hb).1
    obtain ⟨t, ht⟩ := opNode_isSome exp h op (fun a ha => by
      have := hwf ops.length op (by simp) a ha
      omega)
    exact ⟨h ++ [t], by rw [build_snoc, hb, Option.some_bind, step_eq_opNode, ht]; rfl⟩

theorem wfOps_set_leaf {β : Type} (ops : List (Op β)) (hwf : WFOps ops) (l : Nat) (v : β) :
    WFOps (ops.set l (.leaf v)) := by
  intro r op hr a ha
  rw [List.getElem?_set] at hr
  split at hr
  · split at hr
    · simp only [Option.some.injEq] at hr
      subst hr
      simp [Op.operands] at ha
    · simp at hr
  · exact hwf r op hr a ha

theorem opNode_shape (exp : α → α) (h : Heap α) (op : Op α) (t : Tensor α)
    (ht : opNode exp h op = some t) :
    t.parents = op.operands ∧ t.local_grads.length = op.operands.length ∧ t.grad = 0 := by
  cases op with
  | leaf v =>
    simp only [opNode, Option.some.injEq] at ht
    subst ht
    simp [Tensor.new, Op.operands]
  | add a b =>
    simp only [opNode] at ht
    cases ha : h[a]? <;> cases hb : h[b]? <;> simp [ha, hb] at ht
    subst ht
    simp [Op.operands]
  | mul a b =>
    simp only [opNode] at ht
    cases ha : h[a]? <;> cases hb : h[b]? <;> simp [ha, hb] at ht
    subst ht
    simp [Op.operands]
  | sigmoid x =>
    simp only [opNode] at ht
    cases hx : h[x]? <;> simp [hx] at ht
    subst ht
    simp [Op.operands]

/-- A built graph is well formed and acyclic: parents were allocated earlier. -/
theorem acyclic_build (exp : α → α) (ops : List (Op α)) (h : Heap α)
    (hb : build exp ops = some h) : Acyclic h id := by
  obtain ⟨hlen, hnodes⟩ := build_spec exp ops h hb
  intro n t ht
  have hn : n < ops.length := by
    have := (List.getElem?_eq_some_iff.mp ht).1
    omega
  obtain ⟨h1, h2⟩ := hnodes n ops[n] (List.getElem?_eq_getElem hn)
  rw [ht] at h2
  obtain ⟨hp, hl, _⟩ := opNode_shape exp h _ t h2.symm
  refine ⟨by rw [hp, hl], ?_⟩
  intro p hpm
  rw [hp] at hpm
  have := h1 p hpm
  exact ⟨by omega, this⟩

/-- Every `grad` of a freshly built graph is 0. -/
theorem grad_build (exp : α → α) (ops : List (Op α)) (h : Heap α)
    (hb : build exp ops = some h) (n : Nat) (t : Tensor α) (ht : h[n]? = some t) :
    t.grad = 0 := by
  obtain ⟨hlen, hnodes⟩ := build_spec exp ops h hb
  have hn : n < ops.length := by
    have := (List.getElem?_eq_some_iff.mp ht).1
    omega
  obtain ⟨_, h2⟩ := hnodes n ops[n] (List.getElem?_eq_getElem hn)
  rw [ht] at h2
  exact (opNode_shape exp h _ t h2.symm).2.2

end Build

/-! ## The backward traversal -/

/-- The diamond is what the constructors build. -/
theorem diamond_built :
    ((mul (make_shared (make_shared [] 2).1 3).1 0 1).bind fun hc =>
      (add hc.1 0 1).bind fun hd => mul hd.1 hc.2 hd.2) = some (diamond, 4) := by
  decide

theorem acyclic_diamond : Acyclic diamond id := by
  intro n t ht
  have hn : n < 5 := (List.getElem?_eq_some_iff.mp ht).1
  interval_cases n <;> simp [diamond] at ht <;> subst ht <;> simp [diamond]

/-- On the diamond, backward from `e` leaves `a.grad = 21 = 3 * 5 + 1 * 6` and
`b.grad = 16 = 2 * 5 + 1 * 6`, one contribution per path. -/
theorem diamond_backward :
    (backward 3 diamond 4 1).map (fun h => (gradAt h 0, gradAt h 1)) = some (21, 16) := by
  decide

/-- Well-formedness and acyclicity, node by node: a form that can be evaluated on
a concrete heap. -/
theorem acyclic_iff_forall_lt {α : Type} (h : Heap α) (rank : Nat → Nat) :
    Acyclic h rank ↔ ∀ (n : Nat) (hn : n < h.length),
      h[n].parents.length = h[n].local_grads.length ∧
        ∀ p ∈ h[n].parents, p < h.length ∧ rank p < rank n := by
  constructor
  · intro hac n hn
    exact hac n h[n] (List.getElem?_eq_getElem hn)
  · intro H n t ht
    obtain ⟨hn, rfl⟩ := List.getElem?_eq_some_iff.mp ht
    exact H n hn

/-- C2 (path-sum formula, amended: arithmetic read as exact, that is, in any
commutative ring): on a well-formed acyclic graph, `backward` from `r` with seed
`s` returns, and the grad of every node `n` afterwards is its grad before plus `s`
times the sum, over all directed edge-paths from `r` to `n`, of the product of the
local derivatives along the path. -/
theorem backward_path_sum {α : Type} [CommRing α] (h : Heap α) (rank : Nat → Nat)
    (hac : Acyclic h rank) (r : Nat) (hr : r < h.length) (s : α) :
    ∃ h', (∀ fuel, rank r < fuel → backward fuel h r s = some h') ∧
      ∀ n, n < h.length →
        ∃ ps : List (List (Edge α)), ps.Nodup ∧ (∀ π, π ∈ ps ↔ IsPath h r n π) ∧
          gradAt h' n = gradAt h n + s * (ps.map pathWeight).sum := by
  refine ⟨addGrads h (fun n => s * pathSum (rank r + 1) h r n), ?_, ?_⟩
  · intro fuel hf
    exact backward_eq_rank rank fuel h hac r s hr hf
  · intro n hn
    refine ⟨paths (rank r + 1) h r n, nodup_paths h n _ r,
      mem_paths_iff h rank hac _ r n (Nat.lt_succ_self _), ?_⟩
    rw [gradAt_addGrads h _ n hn]
    rfl

theorem backward_path_sum_witness :
    Acyclic diamond id ∧ 4 < diamond.length ∧
    ∃ h', (∀ fuel, id 4 < fuel → backward fuel diamond 4 1 = some h') ∧
      ∀ n, n < diamond.length →
        ∃ ps : List (List (Edge ℤ)), ps.Nodup ∧ (∀ π, π ∈ ps ↔ IsPath diamond 4 n π) ∧
          gradAt h' n = gradAt diamond n + 1 * (ps.map pathWeight).sum :=
  ⟨acyclic_diamond, by decide, backward_path_sum diamond id acyclic_diamond 4 (by decide) 1⟩

/-- C2, as stated, fails in the arithmetic of `double`. On the graph `u = 5`,
`v = 0.3`, `w = 0.2`, `m = u * v`, `n = m * w`, all grads 0, `backward` from `n` with
seed `0.1` returns and leaves `u.grad = (0.1 * 0.2) * 0.3 = 0.006000000000000001`:
the seed is multiplied into the local derivatives edge by edge, each product
rounded. The only path from `n` to `u` is `n -> m -> u`, with local derivatives
`0.2` and `0.3`, and the grad before plus the seed times the sum over the paths of
the product along the path is `0 + 0.1 * (0.2 * 0.3) = 0.006`, one unit in the last
place less. -/
theorem path_sum_rounding :
    ∃ h h' : Heap Dbl,
      productChain = some (h, 4) ∧ Acyclic h id ∧
      (∀ fuel, 4 < fuel → backward fuel h 4 (Dbl.lit 1 10) = some h') ∧
      (∀ fuel h'', backward fuel h 4 (Dbl.lit 1 10) = some h'' → h'' = h') ∧
      gradAt h 0 = 0 ∧
      gradAt h' 0 = Dbl.fin false 6917529027641083 1014 ∧
      ∀ ps : List (List (Edge Dbl)), ps.Nodup → (∀ π, π ∈ ps ↔ IsPath h 4 0 π) →
        gradAt h 0 + Dbl.lit 1 10 * (ps.map pathWeight).sum =
            Dbl.fin false 6917529027641082 1014 ∧
          gradAt h' 0 ≠ gradAt h 0 + Dbl.lit 1 10 * (ps.map pathWeight).sum := by
  have hb : backward 5 ((productChain.map Prod.fst).getD []) 4 (Dbl.lit 1 10) =
      some ((backward 5 ((productChain.map Prod.fst).getD []) 4 (Dbl.lit 1 10)).getD []) := by
    decide!
  have hac : Acyclic ((productChain.map Prod.fst).getD []) id :=
    (acyclic_iff_forall_lt _ _).mpr (by decide!)
  refine ⟨(productChain.map Prod.fst).getD [], _, by decide!, hac,
    fun fuel hf => backward_mono 5 fuel (by omega) _ 4 _ _ hb,
    fun fuel h'' hb2 => backward_det fuel 5 _ 4 _ _ _ hb2 hb, by decide!, by decide!, ?_⟩
  intro ps hnd hps
  have hpaths : paths 5 ((productChain.map Prod.fst).getD []) 4 0 =
      [[Edge.mk 0 3 (Dbl.lit 2 10), Edge.mk 0 0 (Dbl.lit 3 10)]] := by decide!
  have hmem : ∀ π, π ∈ ps ↔ π = [Edge.mk 0 3 (Dbl.lit 2 10), Edge.mk 0 0 (Dbl.lit 3 10)] := by
    intro π
    rw [hps π, ← mem_paths_iff _ id hac 5 4 0 (by decide), hpaths, List.mem_singleton]
  have hps1 : ps = [[Edge.mk 0 3 (Dbl.lit 2 10), Edge.mk 0 0 (Dbl.lit 3 10)]] := by
    have hperm : ps.Perm [[Edge.mk 0 3 (Dbl.lit 2 10), Edge.mk 0 0 (Dbl.lit 3 10)]] :=
      (List.perm_ext_iff_of_nodup hnd (List.nodup_singleton _)).mpr
        (fun π => by rw [hmem π, List.mem_singleton])
    exact List.perm_singleton.mp hperm
  rw [hps1]
  decide!

theorem build_diamondOps {α : Type} [Field α] (exp : α → α) :
    build exp diamondOps = some diamondHeap :=
  rfl

theorem build_chainOps {α : Type} [Field α] (exp : α → α) :
    build exp chainOps = some (chainHeap exp) :=
  rfl

/-- C10 (reset semantics): on a freshly built graph, `backward` from `r` with seed
`s` returns some heap `h1`; after the grad of every node touched by that pass is
set to 0, a second `backward` from `r` with seed `s` returns `h1` again, so every
node has exactly the grad it had after the first pass. -/
theorem reset_semantics {α : Type} [Field α] (exp : α → α) (ops : List (Op α)) (h : Heap α)
    (hb : build exp ops = some h) (r : Nat) (hr : r < h.length) (s : α) :
    ∃ h1, ∀ fuel, r < fuel →
      backward fuel h r s = some h1 ∧
        backward fuel (resetGrads h1 (visits fuel h r)) r s = some h1 := by
  have hac := acyclic_build exp ops h hb
  refine ⟨addGrads h (fun n => s * pathSum (id r + 1) h r n), ?_⟩
  intro fuel hf
  have h1 := backward_eq_rank id fuel h hac r s hr hf
  refine ⟨h1, ?_⟩
  have hreset : resetGrads (addGrads h (fun n => s * pathSum (id r + 1) h r n))
      (visits fuel h r) = h := by
    apply List.ext_getElem?
    intro n
    simp only [resetGrads, List.getElem?_mapIdx, getElem?_addGrads]
    cases ht : h[n]? with
    | none => rfl
    | some t =>
      have hg := grad_build exp ops h hb n t ht
      simp only [Option.map_some', Option.some.injEq]
      by_cases hn : n ∈ visits fuel h r
      · simp only [hn, if_true]
        cases t
        simp_all
      · simp only [hn, if_false]
        have hp : pathSum (id r + 1) h r n = 0 := by
          rw [← pathSum_fuel h id hac fuel (id r + 1) r n hf (Nat.lt_succ_self _)]
          simp [pathSum, paths_eq_nil_of_not_mem_visits h n fuel r hn]
        rw [hp]
        cases t
        simp
  rw [hreset]
  exact h1

theorem reset_semantics_witness :
    build (fun x : ℚ => x) diamondOps = some diamondHeap ∧
    4 < (diamondHeap : Heap ℚ).length ∧
    ∃ h1, ∀ fuel, 4 < fuel →
      backward fuel (diamondHeap : Heap ℚ) 4 7 = some h1 ∧
        backward fuel (resetGrads h1 (visits fuel (diamondHeap : Heap ℚ) 4)) 4 7 = some h1 :=
  ⟨build_diamondOps _, by decide,
    reset_semantics (fun x : ℚ => x) diamondOps diamondHeap (build_diamondOps _) 4 (by decide) 7⟩

theorem backward_step {α : Type} [Add α] [Mul α] (fuel : Nat) (h : Heap α) (r : Nat) (s : α)
    (t : Tensor α) (ht : h[r]? = some t) :
    backward (fuel + 1) h r s =
      backwardLoop (backward fuel) s t.parents t.local_grads
        (h.set r { t with grad := t.grad + s }) := by
  simp only [backward, ht]

theorem backward_leaf {α : Type} [Add α] [Mul α] (fuel : Nat) (h : Heap α) (r : Nat) (s : α)
    (t : Tensor α) (ht : h[r]? = some t) (hl : t.parents = []) :
    backward (fuel + 1) h r s = some (h.set r { t with grad := t.grad + s }) := by
  rw [backward_step fuel h r s t ht, hl]
  rfl

/-- C7 (single-path gradient check): for distinct leaves `x` and `w` with grad 0
and `y = sigmoid (x * w)`, `backward` from `y` with seed 1 returns, and afterwards
`w.grad = x.value * (y.value * (1 - y.value))` and
`x.grad = w.value * (y.value * (1 - y.value))`. -/
theorem single_path_gradient {α : Type} [Field α] (exp : α → α) (h : Heap α) (x w : Nat)
    (tx tw : Tensor α) (hxw : x ≠ w) (hx : h[x]? = some tx) (hw : h[w]? = some tw)
    (hxl : tx.parents = []) (hwl : tw.parents = []) (hxg : tx.grad = 0) (hwg : tw.grad = 0) :
    ∃ h1 m h2 y h3, mul h x w = some (h1, m) ∧ sigmoid exp h1 m = some (h2, y) ∧
      (∀ fuel, 3 ≤ fuel → backward fuel h2 y 1 = some h3) ∧
      gradAt h3 w = tx.value * (valueAt h2 y * (1 - valueAt h2 y)) ∧
      gradAt h3 x = tw.value * (valueAt h2 y * (1 - valueAt h2 y)) := by
  have hxlt : x < h.length := (List.getElem?_eq_some_iff.mp hx).1
  have hwlt : w < h.length := (List.getElem?_eq_some_iff.mp hw).1
  obtain ⟨M, hM⟩ : ∃ M, M = mulNode x tx w tw := ⟨_, rfl⟩
  obtain ⟨S, hS⟩ : ∃ S, S = sigmoidNode exp h.length M := ⟨_, rfl⟩
  obtain ⟨A, hA⟩ : ∃ A, A = (h ++ [M] ++ [S]).set (h.length + 1) { S with grad := S.grad + 1 } :=
    ⟨_, rfl⟩
  obtain ⟨B, hB⟩ : ∃ B, B = A.set h.length { M with grad := M.grad + 1 * (S.value * (1 - S.value)) } :=
    ⟨_, rfl⟩
  obtain ⟨C, hC⟩ : ∃ C, C = B.set x
      { tx with grad := tx.grad + 1 * (S.value * (1 - S.value)) * tw.value } := ⟨_, rfl⟩
  obtain ⟨D, hD⟩ : ∃ D, D = C.set w
      { tw with grad := tw.grad + 1 * (S.value * (1 - S.value)) * tx.value } := ⟨_, rfl⟩
  have l1 : (h ++ [M] ++ [S])[h.length + 1]? = some S := by
    rw [List.getElem?_append_right (by simp)]
    simp
  have l2 : A[h.length]? = some M := by
    rw [hA, List.getElem?_set_ne (by omega), List.getElem?_append_left (by simp)]
    simp
  have l3 : B[x]? = some tx := by
    rw [hB, List.getElem?_set_ne (by omega), hA, List.getElem?_set_ne (by omega),
      List.append_assoc, List.getElem?_append_left hxlt, hx]
  have l4 : C[w]? = some tw := by
    rw [hC, List.getElem?_set_ne hxw, hB, List.getElem?_set_ne (by omega), hA,
      List.getElem?_set_ne (by omega), List.append_assoc, List.getElem?_append_left hwlt, hw]
  have hSp : S.parents = [h.length] ∧ S.local_grads = [S.value * (1 - S.value)] := by
    rw [hS]
    exact ⟨rfl, rfl⟩
  have hMp : M.parents = [x, w] ∧ M.local_grads = [tw.value, tx.value] := by
    rw [hM]
    exact ⟨rfl, rfl⟩
  have b1 : backward 1 B x (1 * (S.value * (1 - S.value)) * tw.value) = some C := by
    rw [backward_leaf 0 B x _ tx l3 hxl, hC]
  have b2 : backward 1 C w (1 * (S.value * (1 - S.value)) * tx.value) = some D := by
    rw [backward_leaf 0 C w _ tw l4 hwl, hD]
  have b3 : backward 2 A h.length (1 * (S.value * (1 - S.value))) = some D := by
    rw [backward_step 1 A h.length _ M l2, ← hB, hMp.1, hMp.2]
    simp only [backwardLoop, b1, b2]
  have b4 : backward 3 (h ++ [M] ++ [S]) (h.length + 1) 1 = some D := by
    rw [backward_step 2 _ _ _ S l1, ← hA, hSp.1, hSp.2]
    simp only [backwardLoop, b3]
  have hy : valueAt (h ++ [M] ++ [S]) (h.length + 1) = S.value := by
    simp only [valueAt, l1]
  have hlenC : w < C.length := by
    rw [hC, hB, hA]
    simp
    omega
  have hlenB : x < B.length := by
    rw [hB, hA]
    simp
    omega
  refine ⟨h ++ [M], h.length, h ++ [M] ++ [S], h.length + 1, D, ?_, ?_, ?_, ?_, ?_⟩
  · simp [mul, hx, hw, hM]
  · rw [hS, hM]
    simp [sigmoid]
  · intro fuel hf
    exact backward_mono 3 fuel hf _ _ _ _ b4
  · rw [hy, hD]
    simp only [gradAt, List.getElem?_set_eq_of_lt _ hlenC, hwg]
    ring
  · rw [hy, hD]
    simp only [gradAt, List.getElem?_set_ne hxw.symm]
    rw [hC]
    simp only [List.getElem?_set_eq_of_lt _ hlenB, hxg]
    ring

theorem single_path_gradient_witness :
    (0 : Nat) ≠ 1 ∧
    ([Tensor.new 2, Tensor.new 3] : Heap ℝ)[0]? = some (Tensor.new 2) ∧
    ([Tensor.new 2, Tensor.new 3] : Heap ℝ)[1]? = some (Tensor.new 3) ∧
    (Tensor.new (2 : ℝ)).parents = [] ∧ (Tensor.new (3 : ℝ)).parents = [] ∧
    (Tensor.new (2 : ℝ)).grad = 0 ∧ (Tensor.new (3 : ℝ)).grad = 0 ∧
    ∃ h1 m h2 y h3, mul ([Tensor.new 2, Tensor.new 3] : Heap ℝ) 0 1 = some (h1, m) ∧
      sigmoid Real.exp h1 m = some (h2, y) ∧
      (∀ fuel, 3 ≤ fuel → backward fuel h2 y 1 = some h3) ∧
      gradAt h3 1 = (Tensor.new (2 : ℝ)).value * (valueAt h2 y * (1 - valueAt h2 y)) ∧
      gradAt h3 0 = (Tensor.new (3 : ℝ)).value * (valueAt h2 y * (1 - valueAt h2 y)) :=
  ⟨by decide, rfl, rfl, rfl, rfl, rfl, rfl,
    single_path_gradient Real.exp _ 0 1 _ _ (by decide) rfl rfl rfl rfl rfl rfl⟩

/-! ## The constructors -/

/-- C3 (addition): `a + b` allocates a new node whose value is
`a.value + b.value`, whose grad is 0, and whose edges are `(a, 1)` then `(b, 1)`. -/
theorem add_spec {α : Type} [Zero α] [One α] [Add α] (h : Heap α) (a b : Nat)
    (ta tb : Tensor α) (ha : h[a]? = some ta) (hb : h[b]? = some tb) :
    ∃ h' r t, add h a b = some (h', r) ∧ h[r]? = none ∧ h'[r]? = some t ∧
      t.value = ta.value + tb.value ∧ t.grad = 0 ∧
      t.parents = [a, b] ∧ t.local_grads = [1, 1] := by
  refine ⟨h ++ [addNode a ta b tb], h.length, addNode a ta b tb, ?_, ?_, ?_, rfl, rfl, rfl, rfl⟩
  · simp [add, ha, hb]
  · simp
  · simp

theorem add_spec_witness :
    ([Tensor.new 2, Tensor.new 5] : Heap ℤ)[0]? = some (Tensor.new 2) ∧
    ([Tensor.new 2, Tensor.new 5] : Heap ℤ)[1]? = some (Tensor.new 5) ∧
    ∃ h' r t, add ([Tensor.new 2, Tensor.new 5] : Heap ℤ) 0 1 = some (h', r) ∧
      ([Tensor.new 2, Tensor.new 5] : Heap ℤ)[r]? = none ∧ h'[r]? = some t ∧
      t.value = (Tensor.new (2 : ℤ)).value + (Tensor.new (5 : ℤ)).value ∧ t.grad = 0 ∧
      t.parents = [0, 1] ∧ t.local_grads = [1, 1] :=
  ⟨rfl, rfl, add_spec _ 0 1 _ _ rfl rfl⟩

/-- C4 (multiplication): `a * b` allocates a new node whose value is
`a.value * b.value`, whose grad is 0, and whose edges are `(a, b.value)` then
`(b, a.value)`. -/
theorem mul_spec {α : Type} [Zero α] [Mul α] (h : Heap α) (a b : Nat)
    (ta tb : Tensor α) (ha : h[a]? = some ta) (hb : h[b]? = some tb) :
    ∃ h' r t, mul h a b = some (h', r) ∧ h[r]? = none ∧ h'[r]? = some t ∧
      t.value = ta.value * tb.value ∧ t.grad = 0 ∧
      t.parents = [a, b] ∧ t.local_grads = [tb.value, ta.value] := by
  refine ⟨h ++ [mulNode a ta b tb], h.length, mulNode a ta b tb, ?_, ?_, ?_, rfl, rfl, rfl, rfl⟩
  · simp [mul, ha, hb]
  · simp
  · simp

theorem mul_spec_witness :
    ([Tensor.new 2, Tensor.new 5] : Heap ℤ)[0]? = some (Tensor.new 2) ∧
    ([Tensor.new 2, Tensor.new 5] : Heap ℤ)[1]? = some (Tensor.new 5) ∧
    ∃ h' r t, mul ([Tensor.new 2, Tensor.new 5] : Heap ℤ) 0 1 = some (h', r) ∧
      ([Tensor.new 2, Tensor.new 5] : Heap ℤ)[r]? = none ∧ h'[r]? = some t ∧
      t.value = (Tensor.new (2 : ℤ)).value * (Tensor.new (5 : ℤ)).value ∧ t.grad = 0 ∧
      t.parents = [0, 1] ∧
      t.local_grads = [(Tensor.new (5 : ℤ)).value, (Tensor.new (2 : ℤ)).value] :=
  ⟨rfl, rfl, mul_spec _ 0 1 _ _ rfl rfl⟩

/-- C5 (sigmoid): `x->sigmoid()` allocates a new node whose value is
`s = 1 / (1 + exp (-x.value))`, whose grad is 0, and whose only edge is
`(x, s * (1 - s))`, so the local derivative is `value * (1 - value)` of the result. -/
theorem sigmoid_spec {α : Type} [Field α] (exp : α → α) (h : Heap α) (x : Nat)
    (tx : Tensor α) (hx : h[x]? = some tx) :
    ∃ h' r t, sigmoid exp h x = some (h', r) ∧ h[r]? = none ∧ h'[r]? = some t ∧
      t.value = 1 / (1 + exp (-tx.value)) ∧ t.grad = 0 ∧
      t.parents = [x] ∧
      t.local_grads = [1 / (1 + exp (-tx.value)) * (1 - 1 / (1 + exp (-tx.value)))] ∧
      t.local_grads = [t.value * (1 - t.value)] := by
  refine ⟨h ++ [sigmoidNode exp x tx], h.length, sigmoidNode exp x tx, ?_, ?_, ?_,
    rfl, rfl, rfl, rfl, rfl⟩
  · simp [sigmoid, hx]
  · simp
  · simp

theorem sigmoid_spec_witness :
    ([Tensor.new 3] : Heap ℝ)[0]? = some (Tensor.new 3) ∧
    ∃ h' r t, sigmoid Real.exp ([Tensor.new 3] : Heap ℝ) 0 = some (h', r) ∧
      ([Tensor.new 3] : Heap ℝ)[r]? = none ∧ h'[r]? = some t ∧
      t.value = 1 / (1 + Real.exp (-(Tensor.new (3 : ℝ)).value)) ∧ t.grad = 0 ∧
      t.parents = [0] ∧
      t.local_grads = [1 / (1 + Real.exp (-(Tensor.new (3 : ℝ)).value)) *
        (1 - 1 / (1 + Real.exp (-(Tensor.new (3 : ℝ)).value)))] ∧
      t.local_grads = [t.value * (1 - t.value)] :=
  ⟨rfl, sigmoid_spec Real.exp _ 0 _ rfl⟩

/-! ## Local derivatives -/

/-- The derivative of the logistic function `t ↦ 1 / (1 + exp (-t))` at `x` is
`s * (1 - s)` with `s` its value at `x`. -/
theorem hasDerivAt_logistic (x : ℝ) :
    HasDerivAt (fun t : ℝ => 1 / (1 + Real.exp (-t)))
      (1 / (1 + Real.exp (-x)) * (1 - 1 / (1 + Real.exp (-x)))) x := by
  have hpos : (1 + Real.exp (-x)) ≠ 0 := by positivity
  have h1 : HasDerivAt (fun t : ℝ => 1 + Real.exp (-t)) (-Real.exp (-x)) x := by
    have h2 : HasDerivAt (fun t : ℝ => Real.exp (-t)) (Real.exp (-x) * (-1)) x :=
      (Real.hasDerivAt_exp (-x)).comp x (hasDerivAt_neg x)
    simpa using h2.const_add 1
  have h3 := (hasDerivAt_const x (1 : ℝ)).div h1 hpos
  convert h3 using 1
  field_simp
  ring

/-- C6 (local derivatives are exact partial derivatives): the local derivative
recorded on each edge by `operator+`, `operator*` and `sigmoid` is the partial
derivative of the new node's value with respect to that operand's value, at the
operands' values. -/
theorem local_grads_exact (a b : Nat) (ta tb : Tensor ℝ) :
    (∃ d, (addNode a ta b tb).local_grads[0]? = some d ∧ d = 1 ∧
      HasDerivAt (fun v => (addNode a { ta with value := v } b tb).value) d ta.value) ∧
    (∃ d, (addNode a ta b tb).local_grads[1]? = some d ∧ d = 1 ∧
      HasDerivAt (fun v => (addNode a ta b { tb with value := v }).value) d tb.value) ∧
    (∃ d, (mulNode a ta b tb).local_grads[0]? = some d ∧ d = tb.value ∧
      HasDerivAt (fun v => (mulNode a { ta with value := v } b tb).value) d ta.value) ∧
    (∃ d, (mulNode a ta b tb).local_grads[1]? = some d ∧ d = ta.value ∧
      HasDerivAt (fun v => (mulNode a ta b { tb with value := v }).value) d tb.value) ∧
    (∃ d, (sigmoidNode Real.exp a ta).local_grads[0]? = some d ∧
      d = 1 / (1 + Real.exp (-ta.value)) * (1 - 1 / (1 + Real.exp (-ta.value))) ∧
      HasDerivAt (fun v => (sigmoidNode Real.exp a { ta with value := v }).value) d ta.value) := by
  refine ⟨⟨1, rfl, rfl, ?_⟩, ⟨1, rfl, rfl, ?_⟩, ⟨tb.value, rfl, rfl, ?_⟩,
    ⟨ta.value, rfl, rfl, ?_⟩, ⟨_, rfl, rfl, ?_⟩⟩
  · simpa using (hasDerivAt_id ta.value).add_const tb.value
  · simpa using (hasDerivAt_id tb.value).const_add ta.value
  · simpa using (hasDerivAt_id ta.value).mul_const tb.value
  · simpa using (hasDerivAt_id tb.value).const_mul ta.value
  · simpa using hasDerivAt_logistic ta.value


section BuiltValues

variable {α : Type} [Field α]

theorem set_leaf_self {β : Type} (ops : List (Op β)) (l : Nat) (v : β)
    (hl : ops[l]? = some (.leaf v)) :
    ops.set l (.leaf v) = ops := by
  apply List.ext_getElem?
  intro n
  rw [List.getElem?_set]
  split
  · rename_i hln
    subst hln
    have := (List.getElem?_eq_some_iff.mp hl).1
    simp [this, hl]
  · rfl

theorem builtValue_eq (exp : α → α) (ops : List (Op α)) (h : Heap α)
    (hb : build exp ops = some h) (r : Nat) : builtValue exp ops r = valueAt h r := by
  simp [builtValue, hb]

theorem build_getElem_leaf (exp : α → α) (ops : List (Op α)) (h : Heap α)
    (hb : build exp ops = some h) (r : Nat) (v : α) (hr : ops[r]? = some (.leaf v)) :
    h[r]? = some (Tensor.new v) := by
  rw [((build_spec exp ops h hb).2 r _ hr).2]
  rfl

theorem build_getElem_add (exp : α → α) (ops : List (Op α)) (h : Heap α)
    (hb : build exp ops = some h) (r a b : Nat) (hr : ops[r]? = some (.add a b)) :
    ∃ ta tb, h[a]? = some ta ∧ h[b]? = some tb ∧ h[r]? = some (addNode a ta b tb) ∧
      a < r ∧ b < r := by
  obtain ⟨hlt, hnode⟩ := (build_spec exp ops h hb).2 r _ hr
  have hrl : r < h.length := by
    rw [(build_spec exp ops h hb).1]
    exact (List.getElem?_eq_some_iff.mp hr).1
  have ha := hlt a (by simp [Op.operands])
  have hb' := hlt b (by simp [Op.operands])
  refine ⟨h[a], h[b], List.getElem?_eq_getElem (by omega), List.getElem?_eq_getElem (by omega),
    ?_, ha, hb'⟩
  rw [hnode]
  simp only [opNode, List.getElem?_eq_getElem (show a < h.length by omega),
    List.getElem?_eq_getElem (show b < h.length by omega)]

theorem build_getElem_mul (exp : α → α) (ops : List (Op α)) (h : Heap α)
    (hb : build exp ops = some h) (r a b : Nat) (hr : ops[r]? = some (.mul a b)) :
    ∃ ta tb, h[a]? = some ta ∧ h[b]? = some tb ∧ h[r]? = some (mulNode a ta b tb) ∧
      a < r ∧ b < r := by
  obtain ⟨hlt, hnode⟩ := (build_spec exp ops h hb).2 r _ hr
  have hrl : r < h.length := by
    rw [(build_spec exp ops h hb).1]
    exact (List.getElem?_eq_some_iff.mp hr).1
  have ha := hlt a (by simp [Op.operands])
  have hb' := hlt b (by simp [Op.operands])
  refine ⟨h[a], h[b], List.getElem?_eq_getElem (by omega), List.getElem?_eq_getElem (by omega),
    ?_, ha, hb'⟩
  rw [hnode]
  simp only [opNode, List.getElem?_eq_getElem (show a < h.length by omega),
    List.getElem?_eq_getElem (show b < h.length by omega)]

theorem build_getElem_sigmoid (exp : α → α) (ops : List (Op α)) (h : Heap α)
    (hb : build exp ops = some h) (r x : Nat) (hr : ops[r]? = some (.sigmoid x)) :
    ∃ tx, h[x]? = some tx ∧ h[r]? = some (sigmoidNode exp x tx) ∧ x < r := by
  obtain ⟨hlt, hnode⟩ := (build_spec exp ops h hb).2 r _ hr
  have hrl : r < h.length := by
    rw [(build_spec exp ops h hb).1]
    exact (List.getElem?_eq_some_iff.mp hr).1
  have hx := hlt x (by simp [Op.operands])
  refine ⟨h[x], List.getElem?_eq_getElem (by omega), ?_, hx⟩
  rw [hnode]
  simp only [opNode, List.getElem?_eq_getElem (show x < h.length by omega)]

theorem builtValue_leaf (exp : α → α) (ops : List (Op α)) (hwf : WFOps ops) (r : Nat) (v : α)
    (hr : ops[r]? = some (.leaf v)) : builtValue exp ops r = v := by
  obtain ⟨h, hb⟩ := build_of_wfOps exp ops hwf
  rw [builtValue_eq exp ops h hb]
  simp [valueAt, build_getElem_leaf exp ops h hb r v hr, Tensor.new]

theorem builtValue_add (exp : α → α) (ops : List (Op α)) (hwf : WFOps ops) (r a b : Nat)
    (hr : ops[r]? = some (.add a b)) :
    builtValue exp ops r = builtValue exp ops a + builtValue exp ops b := by
  obtain ⟨h, hb⟩ := build_of_wfOps exp ops hwf
  obtain ⟨ta, tb, ha, hb', hnode, _⟩ := build_getElem_add exp ops h hb r a b hr
  simp [builtValue_eq exp ops h hb, valueAt, ha, hb', hnode]

theorem builtValue_mul (exp : α → α) (ops : List (Op α)) (hwf : WFOps ops) (r a b : Nat)
    (hr : ops[r]? = some (.mul a b)) :
    builtValue exp ops r = builtValue exp ops a * builtValue exp ops b := by
  obtain ⟨h, hb⟩ := build_of_wfOps exp ops hwf
  obtain ⟨ta, tb, ha, hb', hnode, _⟩ := build_getElem_mul exp ops h hb r a b hr
  simp [builtValue_eq exp ops h hb, valueAt, ha, hb', hnode]

theorem builtValue_sigmoid (exp : α → α) (ops : List (Op α)) (hwf : WFOps ops) (r x : Nat)
    (hr : ops[r]? = some (.sigmoid x)) :
    builtValue exp ops r = 1 / (1 + exp (-builtValue exp ops x)) := by
  obtain ⟨h, hb⟩ := build_of_wfOps exp ops hwf
  obtain ⟨tx, hx, hnode, _⟩ := build_getElem_sigmoid exp ops h hb r x hr
  simp [builtValue_eq exp ops h hb, valueAt, hx, hnode]

theorem pathSum_build_leaf (exp : α → α) (ops : List (Op α)) (h : Heap α)
    (hb : build exp ops = some h) (r : Nat) (v : α) (hr : ops[r]? = some (.leaf v))
    (fuel l : Nat) : pathSum (fuel + 1) h r l = if r = l then 1 else 0 := by
  rw [pathSum_succ fuel h r l _ (build_getElem_leaf exp ops h hb r v hr)]
  simp [Tensor.new, pathsLoop]

theorem pathSum_build_add (exp : α → α) (ops : List (Op α)) (h : Heap α)
    (hb : build exp ops = some h) (r a b : Nat) (hr : ops[r]? = some (.add a b))
    (fuel l : Nat) :
    pathSum (fuel + 1) h r l =
      (if r = l then 1 else 0) + (pathSum fuel h a l + pathSum fuel h b l) := by
  obtain ⟨ta, tb, _, _, hnode, _⟩ := build_getElem_add exp ops h hb r a b hr
  rw [pathSum_succ fuel h r l _ hnode]
  simp only [addNode_eq, sum_pathsLoop_cons, pathSum]
  simp [pathsLoop]

theorem pathSum_build_mul (exp : α → α) (ops : List (Op α)) (h : Heap α)
    (hb : build exp ops = some h) (r a b : Nat) (hr : ops[r]? = some (.mul a b))
    (fuel l : Nat) :
    pathSum (fuel + 1) h r l =
      (if r = l then 1 else 0) +
        (valueAt h b * pathSum fuel h a l + valueAt h a * pathSum fuel h b l) := by
  obtain ⟨ta, tb, ha, hb', hnode, _⟩ := build_getElem_mul exp ops h hb r a b hr
  rw [pathSum_succ fuel h r l _ hnode]
  simp only [mulNode_eq, sum_pathsLoop_cons, pathSum, valueAt, ha, hb']
  simp [pathsLoop]

theorem pathSum_build_sigmoid (exp : α → α) (ops : List (Op α)) (h : Heap α)
    (hb : build exp ops = some h) (r x : Nat) (hr : ops[r]? = some (.sigmoid x))
    (fuel l : Nat) :
    pathSum (fuel + 1) h r l =
      (if r = l then 1 else 0) +
        1 / (1 + exp (-valueAt h x)) * (1 - 1 / (1 + exp (-valueAt h x))) *
          pathSum fuel h x l := by
  obtain ⟨tx, hx, hnode, _⟩ := build_getElem_sigmoid exp ops h hb r x hr
  rw [pathSum_succ fuel h r l _ hnode]
  simp only [sigmoidNode_eq, sum_pathsLoop_cons, pathSum, valueAt, hx]
  simp [pathsLoop]

end BuiltValues

/-! ## Exact gradients -/

/-- The chain rule along the construction order: the value of node `r`, as a
function of the value of the leaf `l`, has derivative the sum of the path weights
from `r` to `l`. -/
theorem hasDerivAt_builtValue (ops : List (Op ℝ)) (h : Heap ℝ)
    (hb : build Real.exp ops = some h) (l : Nat) (v : ℝ) (hl : ops[l]? = some (.leaf v)) :
    ∀ (fuel r : Nat), r < fuel → r < ops.length →
      HasDerivAt (fun t => builtValue Real.exp (ops.set l (.leaf t)) r) (pathSum fuel h r l) v
  | 0, _, hf, _ => absurd hf (Nat.not_lt_zero _)
  | fuel + 1, r, hf, hr => by
    have hwf := wfOps_of_build Real.exp ops h hb
    have hwft : ∀ t : ℝ, WFOps (ops.set l (.leaf t)) := fun t => wfOps_set_leaf ops hwf l t
    have hll : l < ops.length := (List.getElem?_eq_some_iff.mp hl).1
    have hself : ∀ n, builtValue Real.exp (ops.set l (.leaf v)) n = valueAt h n := by
      intro n
      rw [set_leaf_self ops l v hl, builtValue_eq Real.exp ops h hb]
    have hop : ops[r]? = some ops[r] := List.getElem?_eq_getElem hr
    cases hopr : ops[r] with
    | leaf u =>
      rw [hopr] at hop
      rw [pathSum_build_leaf Real.exp ops h hb r u hop]
      by_cases hrl : r = l
      · subst hrl
        have hfun : (fun t => builtValue Real.exp (ops.set r (.leaf t)) r) = fun t => t := by
          funext t
          exact builtValue_leaf Real.exp _ (hwft t) r t (by simp [hll])
        rw [hfun, if_pos rfl]
        exact hasDerivAt_id v
      · have hfun : (fun t => builtValue Real.exp (ops.set l (.leaf t)) r) = fun _ => u := by
          funext t
          exact builtValue_leaf Real.exp _ (hwft t) r u
            (by rw [List.getElem?_set_ne (Ne.symm hrl)]; exact hop)
        rw [hfun, if_neg hrl]
        exact hasDerivAt_const v u
    | add a b =>
      rw [hopr] at hop
      have hrl : r ≠ l := by
        rintro rfl
        rw [hl] at hop
        cases hop
      obtain ⟨_, _, _, _, _, har, hbr⟩ := build_getElem_add Real.exp ops h hb r a b hop
      have hfun : (fun t => builtValue Real.exp (ops.set l (.leaf t)) r) = fun t =>
          builtValue Real.exp (ops.set l (.leaf t)) a +
            builtValue Real.exp (ops.set l (.leaf t)) b := by
        funext t
        exact builtValue_add Real.exp _ (hwft t) r a b
          (by rw [List.getElem?_set_ne (Ne.symm hrl)]; exact hop)
      have iha := hasDerivAt_builtValue ops h hb l v hl fuel a (by omega) (by omega)
      have ihb := hasDerivAt_builtValue ops h hb l v hl fuel b (by omega) (by omega)
      rw [hfun, pathSum_build_add Real.exp ops h hb r a b hop, if_neg hrl, zero_add]
      exact iha.add ihb
    | mul a b =>
      rw [hopr] at hop
      have hrl : r ≠ l := by
        rintro rfl
        rw [hl] at hop
        cases hop
      obtain ⟨_, _, _, _, _, har, hbr⟩ := build_getElem_mul Real.exp ops h hb r a b hop
      have hfun : (fun t => builtValue Real.exp (ops.set l (.leaf t)) r) = fun t =>
          builtValue Real.exp (ops.set l (.leaf t)) a *
            builtValue Real.exp (ops.set l (.leaf t)) b := by
        funext t
        exact builtValue_mul Real.exp _ (hwft t) r a b
          (by rw [List.getElem?_set_ne (Ne.symm hrl)]; exact hop)
      have iha := hasDerivAt_builtValue ops h hb l v hl fuel a (by omega) (by omega)
      have ihb := hasDerivAt_builtValue ops h hb l v hl fuel b (by omega) (by omega)
      rw [hfun, pathSum_build_mul Real.exp ops h hb r a b hop, if_neg hrl, zero_add]
      have hmul := iha.mul ihb
      rw [hself a, hself b] at hmul
      convert hmul using 1
      ring
    | sigmoid x =>
      rw [hopr] at hop
      have hrl : r ≠ l := by
        rintro rfl
        rw [hl] at hop
        cases hop
      obtain ⟨_, _, _, hxr⟩ := build_getElem_sigmoid Real.exp ops h hb r x hop
      have hfun : (fun t => builtValue Real.exp (ops.set l (.leaf t)) r) =
          (fun y : ℝ => 1 / (1 + Real.exp (-y))) ∘
            fun t => builtValue Real.exp (ops.set l (.leaf t)) x := by
        funext t
        exact builtValue_sigmoid Real.exp _ (hwft t) r x
          (by rw [List.getElem?_set_ne (Ne.symm hrl)]; exact hop)
      have ihx := hasDerivAt_builtValue ops h hb l v hl fuel x (by omega) (by omega)
      rw [hfun, pathSum_build_sigmoid Real.exp ops h hb r x hop, if_neg hrl, zero_add]
      have hlog := hasDerivAt_logistic (builtValue Real.exp (ops.set l (.leaf v)) x)
      have hcomp := hlog.comp v ihx
      rw [hself x] at hcomp
      exact hcomp

/-- C1 (exact gradients): for a graph built from leaves by `+`, `*` and `sigmoid`
(all grads 0), `backward` from any node `r` with the default seed 1 returns, and
afterwards the grad of every leaf `l` is the partial derivative, at the leaves'
values, of the value of `r` as a function of the value of `l`. -/
theorem backward_exact_gradient (ops : List (Op ℝ)) (h : Heap ℝ)
    (hb : build Real.exp ops = some h) (r : Nat) (hr : r < h.length) (l : Nat) (v : ℝ)
    (hl : ops[l]? = some (.leaf v)) :
    ∃ h', (∀ fuel, r < fuel → backward fuel h r 1 = some h') ∧
      HasDerivAt (fun t => builtValue Real.exp (ops.set l (.leaf t)) r) (gradAt h' l) v := by
  have hac := acyclic_build Real.exp ops h hb
  have hlen := (build_spec Real.exp ops h hb).1
  have hll : l < h.length := by
    rw [hlen]
    exact (List.getElem?_eq_some_iff.mp hl).1
  refine ⟨addGrads h (fun n => 1 * pathSum (id r + 1) h r n),
    fun fuel hf => backward_eq_rank id fuel h hac r 1 hr hf, ?_⟩
  have hg : gradAt h l = 0 := by
    simp only [gradAt, List.getElem?_eq_getElem hll]
    exact grad_build Real.exp ops h hb l _ (List.getElem?_eq_getElem hll)
  rw [gradAt_addGrads h _ l hll, hg, zero_add, one_mul]
  exact hasDerivAt_builtValue ops h hb l v hl (id r + 1) r (Nat.lt_succ_self _) (by omega)


theorem backward_exact_gradient_witness :
    build Real.exp chainOps = some (chainHeap Real.exp) ∧
    3 < (chainHeap Real.exp).length ∧
    (chainOps : List (Op ℝ))[0]? = some (.leaf 2) ∧
    ∃ h', (∀ fuel, 3 < fuel → backward fuel (chainHeap Real.exp) 3 1 = some h') ∧
      HasDerivAt (fun t => builtValue Real.exp ((chainOps : List (Op ℝ)).set 0 (.leaf t)) 3)
        (gradAt h' 0) 2 :=
  ⟨build_chainOps _, by decide, rfl,
    backward_exact_gradient chainOps (chainHeap Real.exp) (build_chainOps _) 3 (by decide) 0 2 rfl⟩

/-! ## The end-to-end scenario -/

/-- The value `1 / (1 + exp (-0.6))` is within 0.0001 of 0.6457. -/
theorem logistic_six_tenths_bound : |1 / (1 + Real.exp (-0.6)) - 0.6457| < 0.0001 := by
  have hb := Real.exp_bound (x := -0.6) (by norm_num [abs_le]) (n := 8) (by norm_num)
  simp only [Finset.sum_range_succ, Finset.sum_range_zero, Nat.factorial] at hb
  have h35 : |(3 / 5 : ℝ)| = 3 / 5 := abs_of_pos (by norm_num)
  norm_num [h35] at hb
  rw [abs_le] at hb
  obtain ⟨hlo, hhi⟩ := hb
  have hpos : (0 : ℝ) < 1 + Real.exp (-0.6) := by positivity
  rw [abs_lt]
  constructor
  · rw [lt_sub_iff_add_lt, lt_div_iff₀ hpos]
    norm_num at hlo hhi ⊢
    linarith
  · rw [sub_lt_iff_lt_add, div_lt_iff₀ hpos]
    norm_num at hlo hhi ⊢
    linarith

/-- C8 (end-to-end scenario): with fresh leaves `x1 = 1`, `x2 = 0`, `w1 = 0.5`,
`w2 = -0.3`, `b = 0.1` and `h = sigmoid (add (add (multiply x1 w1) (multiply x2 w2)) b)`,
`h.value` is `1 / (1 + exp (-0.6))`, which is within 0.0001 of 0.6457, and after
`backward` from `h` with the default seed 1, `w1.grad = x1.value * h.value * (1 - h.value)`. -/
theorem end_to_end :
    ∃ h x1 w1 out h', scenario Real.exp = some (h, x1, w1, out) ∧
      valueAt h out = 1 / (1 + Real.exp (-0.6)) ∧
      |valueAt h out - 0.6457| < 0.0001 ∧
      (∀ fuel, 5 ≤ fuel → backward fuel h out 1 = some h') ∧
      gradAt h' w1 = valueAt h x1 * valueAt h out * (1 - valueAt h out) := by
  obtain ⟨H, hH⟩ : ∃ H, scenario Real.exp = some (H, 0, 2, 9) := ⟨_, rfl⟩
  have hH2 := hH
  simp only [scenario, make_shared, mul, add, sigmoid, Tensor.new, List.nil_append,
    List.length_nil, List.length_cons, List.length_append, List.cons_append,
    List.getElem?_cons_zero, List.getElem?_cons_succ, Option.bind, Option.some.injEq,
    Prod.mk.injEq, and_true, sigmoidNode_eq, mulNode_eq, addNode_eq] at hH2
  have harg : (1 * 0.5 + 0 * -0.3 + 0.1 : ℝ) = 0.6 := by norm_num
  rw [harg] at hH2
  have hval : valueAt H 9 = 1 / (1 + Real.exp (-0.6)) := by
    rw [← hH2]
    rfl
  cases hb : backward 5 H 9 1 with
  | none =>
    rw [← hH2] at hb
    simp [backward, backwardLoop] at hb
  | some H' =>
    refine ⟨H, 0, 2, 9, H', hH, hval, ?_, fun fuel hf => backward_mono 5 fuel hf _ _ _ _ hb, ?_⟩
    · rw [hval]
      exact logistic_six_tenths_bound
    · rw [hval]
      rw [← hH2] at hb ⊢
      simp [backward, backwardLoop] at hb
      subst hb
      simp [gradAt, valueAt]
/-! ## Accumulation, frame and shape properties -/

/-- Whatever depth bound makes `backward` return, the result is the same. -/
theorem backward_unique {α : Type} [CommRing α] (h : Heap α) (rank : Nat → Nat)
    (hac : Acyclic h rank) (r : Nat) (hr : r < h.length) (s : α) (fuel : Nat) (h' : Heap α)
    (hb : backward fuel h r s = some h') :
    h' = addGrads h (fun n => s * pathSum (rank r + 1) h r n) := by
  have h1 := backward_mono fuel (max fuel (rank r + 1)) (le_max_left _ _) h r s h' hb
  rw [backward_eq_rank rank _ h hac r s hr
    (by have := le_max_right fuel (rank r + 1); omega)] at h1
  exact (Option.some.inj h1).symm

/-- A node that is the end of no path from the root gets a zero path sum. -/
theorem pathSum_eq_zero_of_no_path {α : Type} [CommRing α] (h : Heap α) (fuel r n : Nat)
    (hno : ∀ π, ¬ IsPath h r n π) : pathSum fuel h r n = 0 := by
  have hnil : paths fuel h r n = [] := by
    cases hp : paths fuel h r n with
    | nil => rfl
    | cons π l =>
      exact absurd (isPath_of_mem_paths h n fuel r π (by rw [hp]; exact List.mem_cons_self _ _))
        (hno π)
  simp [pathSum, hnil]

/-- Along a path the rank drops by at least the length of the path. -/
theorem isPath_rank_le {α : Type} (h : Heap α) (rank : Nat → Nat) (hac : Acyclic h rank)
    (r n : Nat) (π : List (Edge α)) (hπ : IsPath h r n π) : rank n + π.length ≤ rank r := by
  induction hπ with
  | nil r _ => simp
  | cons r n t e π ht hp _ _ ih =>
    have := ((hac r t ht).2 e.parent (List.getElem?_mem hp)).2
    simp only [List.length_cons]
    omega

/-- C11 (accumulation without reset, amended: arithmetic read as exact, that is,
in any commutative ring): on a well-formed acyclic graph, `backward` from `r` with
seed `s1` followed, with no reset, by `backward` from `r` with seed `s2` returns (no
error), and leaves the heap that a single `backward` with seed `s1 + s2` leaves;
from zero grads, two passes with the same seed leave every node with twice its
one-pass grad. -/
theorem backward_accumulates {α : Type} [CommRing α] (h : Heap α) (rank : Nat → Nat)
    (hac : Acyclic h rank) (r : Nat) (hr : r < h.length) (s1 s2 : α) :
    ∃ h1 h2, (∀ fuel, rank r < fuel →
        backward fuel h r s1 = some h1 ∧ backward fuel h1 r s2 = some h2 ∧
          backward fuel h r (s1 + s2) = some h2) ∧
      ((∀ n, gradAt h n = 0) → s2 = s1 → ∀ n, gradAt h2 n = 2 * gradAt h1 n) := by
  refine ⟨addGrads h (fun n => s1 * pathSum (rank r + 1) h r n),
    addGrads h (fun n => (s1 + s2) * pathSum (rank r + 1) h r n), ?_, ?_⟩
  · intro fuel hf
    refine ⟨backward_eq_rank rank fuel h hac r s1 hr hf, ?_,
      backward_eq_rank rank fuel h hac r (s1 + s2) hr hf⟩
    rw [backward_eq_rank rank fuel _ (acyclic_addGrads h _ rank hac) r s2 (by simpa using hr) hf,
      addGrads_addGrads]
    congr 1
    apply addGrads_congr
    intro n _
    rw [pathSum_addGrads]
    ring
  · intro hz hs n
    subst hs
    by_cases hn : n < h.length
    · rw [gradAt_addGrads h _ n hn, gradAt_addGrads h _ n hn, hz n]
      ring
    · simp [gradAt, List.getElem?_eq_none (show h.length ≤ n by omega)]

theorem backward_accumulates_witness :
    Acyclic diamond id ∧ 4 < diamond.length ∧
    ∃ h1 h2, (∀ fuel, id 4 < fuel →
        backward fuel diamond 4 1 = some h1 ∧ backward fuel h1 4 1 = some h2 ∧
          backward fuel diamond 4 (1 + 1) = some h2) ∧
      ((∀ n, gradAt diamond n = 0) → (1 : ℤ) = 1 → ∀ n, gradAt h2 n = 2 * gradAt h1 n) :=
  ⟨acyclic_diamond, by decide, backward_accumulates diamond id acyclic_diamond 4 (by decide) 1 1⟩

/-- C11, as stated, fails in the arithmetic of `double`, in both parts; every pass
returns (no error). On the graph `a = 3`, `b = 0.1`, `c = a * b`, from zero grads,
`backward` from `c` with seed `1.0` and then with seed `5.0` leaves
`a.grad = 0.1 + 0.5 = 0.6` (`0.59999999999999998`), while a single `backward` with
seed `1.0 + 5.0 = 6.0` leaves `a.grad = 6.0 * 0.1 = 0.6000000000000001`. On the
graph `a = 1`, `b = 0.2`, `d = 0.1`, `p = a * b`, `q = a * d`, `e = p + q`, from zero
grads, one pass from `e` with seed `1.0` leaves
`a.grad = 0.2 + 0.1 = 0.30000000000000004`, two passes leave
`a.grad = (0.30000000000000004 + 0.2) + 0.1 = 0.6`, and twice the one-pass grad is
`0.6000000000000001`. -/
theorem accumulation_rounding :
    (∃ h h1 h2 h12 : Heap Dbl,
      scaledLeaf = some (h, 2) ∧ Acyclic h id ∧
      (∀ fuel, 2 < fuel →
        backward fuel h 2 1 = some h1 ∧ backward fuel h1 2 (Dbl.lit 5 1) = some h2 ∧
          backward fuel h 2 (1 + Dbl.lit 5 1) = some h12) ∧
      gradAt h2 0 = Dbl.fin false 5404319552844595 1021 ∧
      gradAt h12 0 = Dbl.fin false 5404319552844596 1021 ∧
      gradAt h2 0 ≠ gradAt h12 0) ∧
    (∃ h h1 h2 : Heap Dbl,
      twoPaths = some (h, 5) ∧ Acyclic h id ∧ (∀ n, gradAt h n = 0) ∧
      (∀ fuel, 5 < fuel → backward fuel h 5 1 = some h1 ∧ backward fuel h1 5 1 = some h2) ∧
      gradAt h1 0 = Dbl.fin false 5404319552844596 1020 ∧
      gradAt h2 0 = Dbl.fin false 5404319552844595 1021 ∧
      Dbl.lit 2 1 * gradAt h1 0 = Dbl.fin false 5404319552844596 1021 ∧
      gradAt h2 0 ≠ Dbl.lit 2 1 * gradAt h1 0) := by
  constructor
  · have hb1 : backward 3 ((scaledLeaf.map Prod.fst).getD []) 2 1 =
        some ((backward 3 ((scaledLeaf.map Prod.fst).getD []) 2 1).getD []) := by decide!
    have hb2 : backward 3 ((backward 3 ((scaledLeaf.map Prod.fst).getD []) 2 1).getD []) 2
        (Dbl.lit 5 1) =
        some ((backward 3 ((backward 3 ((scaledLeaf.map Prod.fst).getD []) 2 1).getD []) 2
          (Dbl.lit 5 1)).getD []) := by decide!
    have hb12 : backward 3 ((scaledLeaf.map Prod.fst).getD []) 2 (1 + Dbl.lit 5 1) =
        some ((backward 3 ((scaledLeaf.map Prod.fst).getD []) 2 (1 + Dbl.lit 5 1)).getD []) := by
      decide!
    exact ⟨(scaledLeaf.map Prod.fst).getD [], _, _, _, by decide!,
      (acyclic_iff_forall_lt _ _).mpr (by decide!),
      fun fuel hf => ⟨backward_mono 3 fuel (by omega) _ 2 _ _ hb1,
        backward_mono 3 fuel (by omega) _ 2 _ _ hb2, backward_mono 3 fuel (by omega) _ 2 _ _ hb12⟩,
      by decide!, by decide!, by decide!⟩
  · have hb1 : backward 6 ((twoPaths.map Prod.fst).getD []) 5 1 =
        some ((backward 6 ((twoPaths.map Prod.fst).getD []) 5 1).getD []) := by decide!
    have hb2 : backward 6 ((backward 6 ((twoPaths.map Prod.fst).getD []) 5 1).getD []) 5 1 =
        some ((backward 6 ((backward 6 ((twoPaths.map Prod.fst).getD []) 5 1).getD []) 5
          1).getD []) := by decide!
    refine ⟨(twoPaths.map Prod.fst).getD [], _, _, by decide!,
      (acyclic_iff_forall_lt _ _).mpr (by decide!), ?_,
      fun fuel hf => ⟨backward_mono 6 fuel (by omega) _ 5 _ _ hb1,
        backward_mono 6 fuel (by omega) _ 5 _ _ hb2⟩,
      by decide!, by decide!, by decide!, by decide!⟩
    intro n
    by_cases hn : n < 6
    · interval_cases n <;> decide!
    · have hlen : ((twoPaths.map Prod.fst).getD []).length ≤ n := by
        have : ((twoPaths.map Prod.fst).getD []).length = 6 := by decide!
        omega
      simp only [gradAt, List.getElem?_eq_none hlen]

/-- C12 (backward writes only reachable grad fields): on a well-formed acyclic
graph, `backward` from `r` returns a heap with the same nodes, in which every node
has the value, the parents and the local derivatives it had, and in which every
node that is the end of no path from `r` (neither `r` nor an ancestor of `r`) has
the grad it had. -/
theorem backward_frame {α : Type} [CommRing α] (h : Heap α) (rank : Nat → Nat)
    (hac : Acyclic h rank) (r : Nat) (hr : r < h.length) (s : α) :
    ∃ h', (∀ fuel, rank r < fuel → backward fuel h r s = some h') ∧
      (∀ fuel h'', backward fuel h r s = some h'' → h'' = h') ∧
      h'.length = h.length ∧
      ∀ n t, h[n]? = some t →
        ∃ t', h'[n]? = some t' ∧ t'.value = t.value ∧ t'.parents = t.parents ∧
          t'.local_grads = t.local_grads ∧ ((∀ π, ¬ IsPath h r n π) → t'.grad = t.grad) := by
  refine ⟨addGrads h (fun n => s * pathSum (rank r + 1) h r n),
    fun fuel hf => backward_eq_rank rank fuel h hac r s hr hf,
    fun fuel h'' hb => backward_unique h rank hac r hr s fuel h'' hb, by simp, ?_⟩
  intro n t ht
  refine ⟨{ t with grad := t.grad + s * pathSum (rank r + 1) h r n }, by simp [ht], rfl, rfl,
    rfl, ?_⟩
  intro hno
  simp [pathSum_eq_zero_of_no_path h _ r n hno]

theorem backward_frame_witness :
    Acyclic diamond id ∧ 2 < diamond.length ∧
    ∃ h', (∀ fuel, id 2 < fuel → backward fuel diamond 2 1 = some h') ∧
      (∀ fuel h'', backward fuel diamond 2 1 = some h'' → h'' = h') ∧
      h'.length = diamond.length ∧
      ∀ n t, diamond[n]? = some t →
        ∃ t', h'[n]? = some t' ∧ t'.value = t.value ∧ t'.parents = t.parents ∧
          t'.local_grads = t.local_grads ∧
          ((∀ π, ¬ IsPath diamond 2 n π) → t'.grad = t.grad) :=
  ⟨acyclic_diamond, by decide, backward_frame diamond id acyclic_diamond 2 (by decide) 1⟩

/-- C13 (constructors do not mutate existing nodes): each of `a + b`, `a * b` and
`x->sigmoid()` allocates exactly one new node; the heap afterwards is the heap
before with that node appended, so every pre-existing node, the operands included,
keeps its value, grad and edges. -/
theorem constructors_frame {α : Type} [Field α] (exp : α → α) (h : Heap α) (a b x : Nat)
    (ta tb tx : Tensor α) (ha : h[a]? = some ta) (hb : h[b]? = some tb)
    (hx : h[x]? = some tx) :
    (∃ h' r, add h a b = some (h', r) ∧ h'.length = h.length + 1 ∧
      ∀ n, n < h.length → h'[n]? = h[n]?) ∧
    (∃ h' r, mul h a b = some (h', r) ∧ h'.length = h.length + 1 ∧
      ∀ n, n < h.length → h'[n]? = h[n]?) ∧
    (∃ h' r, sigmoid exp h x = some (h', r) ∧ h'.length = h.length + 1 ∧
      ∀ n, n < h.length → h'[n]? = h[n]?) := by
  refine ⟨⟨h ++ [addNode a ta b tb], h.length, by simp [add, ha, hb], by simp, ?_⟩,
    ⟨h ++ [mulNode a ta b tb], h.length, by simp [mul, ha, hb], by simp, ?_⟩,
    ⟨h ++ [sigmoidNode exp x tx], h.length, by simp [sigmoid, hx], by simp, ?_⟩⟩
  · intro n hn
    exact List.getElem?_append_left hn
  · intro n hn
    exact List.getElem?_append_left hn
  · intro n hn
    exact List.getElem?_append_left hn

theorem constructors_frame_witness :
    ([Tensor.new 2, Tensor.new 5] : Heap ℚ)[0]? = some (Tensor.new 2) ∧
    ([Tensor.new 2, Tensor.new 5] : Heap ℚ)[1]? = some (Tensor.new 5) ∧
    ([Tensor.new 2, Tensor.new 5] : Heap ℚ)[1]? = some (Tensor.new 5) ∧
    ((∃ h' r, add ([Tensor.new 2, Tensor.new 5] : Heap ℚ) 0 1 = some (h', r) ∧
      h'.length = ([Tensor.new 2, Tensor.new 5] : Heap ℚ).length + 1 ∧
      ∀ n, n < ([Tensor.new 2, Tensor.new 5] : Heap ℚ).length →
        h'[n]? = ([Tensor.new 2, Tensor.new 5] : Heap ℚ)[n]?) ∧
    (∃ h' r, mul ([Tensor.new 2, Tensor.new 5] : Heap ℚ) 0 1 = some (h', r) ∧
      h'.length = ([Tensor.new 2, Tensor.new 5] : Heap ℚ).length + 1 ∧
      ∀ n, n < ([Tensor.new 2, Tensor.new 5] : Heap ℚ).length →
        h'[n]? = ([Tensor.new 2, Tensor.new 5] : Heap ℚ)[n]?) ∧
    (∃ h' r, sigmoid (fun v : ℚ => v) ([Tensor.new 2, Tensor.new 5] : Heap ℚ) 1 = some (h', r) ∧
      h'.length = ([Tensor.new 2, Tensor.new 5] : Heap ℚ).length + 1 ∧
      ∀ n, n < ([Tensor.new 2, Tensor.new 5] : Heap ℚ).length →
        h'[n]? = ([Tensor.new 2, Tensor.new 5] : Heap ℚ)[n]?)) :=
  ⟨rfl, rfl, rfl, constructors_frame (fun v : ℚ => v) _ 0 1 1 _ _ _ rfl rfl rfl⟩

/-- C15 (leaf construction): constructing a leaf from `v` allocates a node with
value `v`, grad 0 and no edges, and `backward` from that leaf with seed `s` only
sets the leaf's own grad to `0 + s = s`: every other node is as it was. -/
theorem leaf_spec {α : Type} [CommRing α] (h : Heap α) (v s : α) (fuel : Nat) :
    ∃ h' p, make_shared h v = (h', p) ∧ h[p]? = none ∧
      h'[p]? = some { value := v, grad := 0, parents := [], local_grads := [] } ∧
      backward (fuel + 1) h' p s =
        some (h ++ [{ value := v, grad := s, parents := [], local_grads := [] }]) := by
  refine ⟨h ++ [Tensor.new v], h.length, rfl, by simp, by simp [Tensor.new], ?_⟩
  rw [backward_leaf fuel _ h.length s (Tensor.new v) (by simp) rfl]
  simp [Tensor.new]

/-- C17 (acyclicity invariant): after a sequence of leaf, `+`, `*` and `sigmoid`
constructions from the empty heap, the heap has one node per construction, every
edge of every node points to a node constructed strictly earlier, and no
non-empty directed path leads from a node back to itself. -/
theorem build_acyclic {α : Type} [Field α] (exp : α → α) (ops : List (Op α)) (h : Heap α)
    (hb : build exp ops = some h) :
    h.length = ops.length ∧
      (∀ (n : Nat) (t : Tensor α), h[n]? = some t → ∀ p ∈ t.parents, p < n) ∧
      (∀ (n : Nat) (π : List (Edge α)), IsPath h n n π → π = []) := by
  have hac := acyclic_build exp ops h hb
  refine ⟨(build_spec exp ops h hb).1, fun n t ht p hp => by simpa using ((hac n t ht).2 p hp).2, ?_⟩
  intro n π hπ
  have := isPath_rank_le h id hac n n π hπ
  simp only [id] at this
  exact List.length_eq_zero.mp (by omega)

theorem build_acyclic_witness :
    build (fun x : ℚ => x) diamondOps = some diamondHeap ∧
    ((diamondHeap : Heap ℚ).length = (diamondOps : List (Op ℚ)).length ∧
      (∀ (n : Nat) (t : Tensor ℚ), (diamondHeap : Heap ℚ)[n]? = some t → ∀ p ∈ t.parents, p < n) ∧
      (∀ n π, IsPath (diamondHeap : Heap ℚ) n n π → π = [])) :=
  ⟨build_diamondOps _, build_acyclic (fun x : ℚ => x) diamondOps diamondHeap (build_diamondOps _)⟩

/-- C16 (edge-count invariant and index safety): the node made by the leaf
constructor has 0 parents and 0 local derivatives, the one made by `sigmoid` 1 and
1, the ones made by `+` and `*` 2 and 2; so in a graph built by these operations
every node has as many local derivatives as parents, `local_grads[i]` exists for
every `i < parents.size()`, and `backward` from any node returns. -/
theorem edge_count_invariant {α : Type} [Field α] (exp : α → α) (ops : List (Op α))
    (h : Heap α) (hb : build exp ops = some h) :
    (∀ v : α, (Tensor.new v).parents.length = 0 ∧ (Tensor.new v).local_grads.length = 0) ∧
    (∀ x tx, (sigmoidNode exp x tx).parents.length = 1 ∧
      (sigmoidNode exp x tx).local_grads.length = 1) ∧
    (∀ a b (ta tb : Tensor α), (addNode a ta b tb).parents.length = 2 ∧
      (addNode a ta b tb).local_grads.length = 2) ∧
    (∀ a b (ta tb : Tensor α), (mulNode a ta b tb).parents.length = 2 ∧
      (mulNode a ta b tb).local_grads.length = 2) ∧
    (∀ (n : Nat) (t : Tensor α), h[n]? = some t → t.parents.length = t.local_grads.length ∧
      ∀ i, i < t.parents.length → ∃ d, t.local_grads[i]? = some d) ∧
    (∀ r s fuel, r < h.length → r < fuel → ∃ h', backward fuel h r s = some h') := by
  have hac := acyclic_build exp ops h hb
  refine ⟨fun v => ⟨rfl, rfl⟩, fun x tx => ⟨rfl, rfl⟩, fun a b ta tb => ⟨rfl, rfl⟩,
    fun a b ta tb => ⟨rfl, rfl⟩, ?_, ?_⟩
  · intro n t ht
    have hlen := (hac n t ht).1
    refine ⟨hlen, fun i hi => ⟨t.local_grads[i], List.getElem?_eq_getElem (by omega)⟩⟩
  · intro r s fuel hr hf
    exact ⟨_, backward_eq_rank id fuel h hac r s hr hf⟩

theorem edge_count_invariant_witness :
    build (fun x : ℚ => x) diamondOps = some diamondHeap ∧
    ((∀ v : ℚ, (Tensor.new v).parents.length = 0 ∧ (Tensor.new v).local_grads.length = 0) ∧
    (∀ x tx, (sigmoidNode (fun x : ℚ => x) x tx).parents.length = 1 ∧
      (sigmoidNode (fun x : ℚ => x) x tx).local_grads.length = 1) ∧
    (∀ a b (ta tb : Tensor ℚ), (addNode a ta b tb).parents.length = 2 ∧
      (addNode a ta b tb).local_grads.length = 2) ∧
    (∀ a b (ta tb : Tensor ℚ), (mulNode a ta b tb).parents.length = 2 ∧
      (mulNode a ta b tb).local_grads.length = 2) ∧
    (∀ (n : Nat) (t : Tensor ℚ), (diamondHeap : Heap ℚ)[n]? = some t →
      t.parents.length = t.local_grads.length ∧
      ∀ i, i < t.parents.length → ∃ d, t.local_grads[i]? = some d) ∧
    (∀ r s fuel, r < (diamondHeap : Heap ℚ).length → r < fuel →
      ∃ h', backward fuel (diamondHeap : Heap ℚ) r s = some h')) :=
  ⟨build_diamondOps _,
    edge_count_invariant (fun x : ℚ => x) diamondOps diamondHeap (build_diamondOps _)⟩

/-! ## Termination and recursion depth -/

section Height

variable {α : Type}

theorem heightLoop_congr (sub1 sub2 : Nat → Nat) :
    ∀ (ps : List Nat) (ds : List α), (∀ p ∈ ps, sub1 p = sub2 p) →
      heightLoop sub1 ps ds = heightLoop sub2 ps ds
  | [], _, _ => by simp [heightLoop]
  | _ :: _, [], _ => by simp [heightLoop]
  | p :: ps, d :: ds, hsub => by
    simp only [heightLoop]
    rw [hsub p (List.mem_cons_self _ _),
      heightLoop_congr sub1 sub2 ps ds (fun q hq => hsub q (List.mem_cons_of_mem _ hq))]

theorem le_heightLoop (sub : Nat → Nat) :
    ∀ (ps : List Nat) (ds : List α) (i p : Nat) (d : α), ps[i]? = some p → ds[i]? = some d →
      sub p + 1 ≤ heightLoop sub ps ds
  | [], _, _, _, _, hp, _ => by simp at hp
  | _ :: _, [], _, _, _, _, hd => by simp at hd
  | q :: ps, e :: ds, 0, p, d, hp, _ => by
    simp only [List.getElem?_cons_zero, Option.some.injEq] at hp
    subst hp
    simp only [heightLoop]
    exact le_max_left _ _
  | q :: ps, e :: ds, i + 1, p, d, hp, hd => by
    simp only [List.getElem?_cons_succ] at hp hd
    simp only [heightLoop]
    exact le_trans (le_heightLoop sub ps ds i p d hp hd) (le_max_right _ _)

theorem heightLoop_cases (sub : Nat → Nat) :
    ∀ (ps : List Nat) (ds : List α),
      (heightLoop sub ps ds = 0 ∧ (ps = [] ∨ ds = [])) ∨
        ∃ (i : Nat) (p : Nat) (d : α),
          ps[i]? = some p ∧ ds[i]? = some d ∧ heightLoop sub ps ds = sub p + 1
  | [], _ => Or.inl ⟨rfl, Or.inl rfl⟩
  | _ :: _, [] => Or.inl ⟨rfl, Or.inr rfl⟩
  | p :: ps, d :: ds => by
    right
    simp only [heightLoop]
    rcases le_total (heightLoop sub ps ds) (sub p + 1) with hle | hle
    · exact ⟨0, p, d, by simp, by simp, max_eq_left hle⟩
    · rcases heightLoop_cases sub ps ds with ⟨h0, _⟩ | ⟨i, q, e, hq, he, heq⟩
      · omega
      · exact ⟨i + 1, q, e, by simpa using hq, by simpa using he, by rw [max_eq_right hle, heq]⟩

theorem height_fuel (h : Heap α) (rank : Nat → Nat) (hac : Acyclic h rank) :
    ∀ (f g r : Nat), rank r < f → rank r < g → height f h r = height g h r
  | 0, _, _, hf, _ => absurd hf (Nat.not_lt_zero _)
  | _ + 1, 0, _, _, hg => absurd hg (Nat.not_lt_zero _)
  | f + 1, g + 1, r, hf, hg => by
    simp only [height]
    cases hr : h[r]? with
    | none => rfl
    | some t =>
      simp only []
      apply heightLoop_congr
      intro p hp
      have hlt := ((hac r t hr).2 p hp).2
      exact height_fuel h rank hac f g p (by omega) (by omega)

/-- Every path from `r` is at most `height` long. -/
theorem isPath_length_le_height (h : Heap α) (rank : Nat → Nat) (hac : Acyclic h rank)
    (r n : Nat) (π : List (Edge α)) (hπ : IsPath h r n π) :
    ∀ fuel, rank r < fuel → π.length ≤ height fuel h r := by
  induction hπ with
  | nil r _ => exact fun _ _ => Nat.zero_le _
  | cons r n t e π ht hp hd _ ih =>
    intro fuel hf
    cases fuel with
    | zero => omega
    | succ fuel =>
      have hlt := ((hac r t ht).2 e.parent (List.getElem?_mem hp)).2
      have h1 := ih fuel (by omega)
      have h2 := le_heightLoop (height fuel h) t.parents t.local_grads e.slot e.parent e.deriv
        hp hd
      simp only [height, ht, List.length_cons]
      omega

/-- Some path from `r` to a leaf is exactly `height` long. -/
theorem exists_isPath_length_eq_height (h : Heap α) (rank : Nat → Nat) (hac : Acyclic h rank) :
    ∀ (fuel r : Nat), r < h.length → rank r < fuel →
      ∃ n π t, IsPath h r n π ∧ π.length = height fuel h r ∧ h[n]? = some t ∧ t.parents = []
  | 0, _, _, hf => absurd hf (Nat.not_lt_zero _)
  | fuel + 1, r, hr, hf => by
    have ht : h[r]? = some h[r] := List.getElem?_eq_getElem hr
    have hwf := hac r h[r] ht
    simp only [height, ht]
    rcases heightLoop_cases (height fuel h) h[r].parents h[r].local_grads with
      ⟨h0, hnil⟩ | ⟨i, p, d, hp, hd, heq⟩
    · refine ⟨r, [], h[r], IsPath.nil r hr, by simp [h0], ht, ?_⟩
      rcases hnil with hnil | hnil
      · exact hnil
      · have := hwf.1
        rw [hnil] at this
        exact List.length_eq_zero.mp this
    · have hpm := hwf.2 p (List.getElem?_mem hp)
      obtain ⟨n, π, t, hπ, hlen, hn, hleaf⟩ :=
        exists_isPath_length_eq_height h rank hac fuel p hpm.1 (by omega)
      exact ⟨n, ⟨i, p, d⟩ :: π, t, IsPath.cons r n h[r] ⟨i, p, d⟩ π ht hp hd hπ,
        by simp [hlen, heq], hn, hleaf⟩

/-- The length of the longest path is itself a rank that decreases along edges. -/
theorem acyclic_height (h : Heap α) (rank : Nat → Nat) (hac : Acyclic h rank) :
    Acyclic h (fun n => height (rank n + 1) h n) := by
  intro n t ht
  refine ⟨(hac n t ht).1, fun p hp => ⟨((hac n t ht).2 p hp).1, ?_⟩⟩
  have hlt := ((hac n t ht).2 p hp).2
  obtain ⟨i, hi⟩ := List.mem_iff_getElem?.mp hp
  have hil : i < t.local_grads.length := by
    rw [← (hac n t ht).1]
    exact (List.getElem?_eq_some_iff.mp hi).1
  have h2 := le_heightLoop (height (rank n) h) t.parents t.local_grads i p t.local_grads[i] hi
    (List.getElem?_eq_getElem hil)
  have h3 := height_fuel h rank hac (rank p + 1) (rank n) p (by omega) hlt
  have h4 : height (rank n + 1) h n = heightLoop (height (rank n) h) t.parents t.local_grads := by
    simp only [height, ht]
  show height (rank p + 1) h p < height (rank n + 1) h n
  omega

end Height

theorem backwardLoop_none_of_call_none {α : Type} [CommRing α] (h : Heap α) (rank : Nat → Nat)
    (hac : Acyclic h rank) (fuel : Nat) (s : α) (p : Nat) (d : α)
    (hnone : ∀ (δ : Nat → α) (g : α), backward fuel (addGrads h δ) p g = none) :
    ∀ (ps : List Nat) (ds : List α) (i : Nat), ps[i]? = some p → ds[i]? = some d →
      (∀ q ∈ ps, q < h.length) → ∀ δ : Nat → α,
      backwardLoop (backward fuel) s ps ds (addGrads h δ) = none
  | [], _, _, hp, _, _, _ => by simp at hp
  | _ :: _, [], _, _, hd, _, _ => by simp at hd
  | q :: ps, e :: ds, 0, hp, _, _, δ => by
    simp only [List.getElem?_cons_zero, Option.some.injEq] at hp
    subst hp
    simp only [backwardLoop, hnone δ (s * e)]
  | q :: ps, e :: ds, i + 1, hp, hd, hq, δ => by
    simp only [List.getElem?_cons_succ] at hp hd
    simp only [backwardLoop]
    cases hb : backward fuel (addGrads h δ) q (s * e) with
    | none => rfl
    | some h1 =>
      simp only []
      have h2 := backward_unique (addGrads h δ) rank (acyclic_addGrads h δ rank hac) q
        (by simpa using hq q (List.mem_cons_self _ _)) (s * e) fuel h1 hb
      rw [h2, addGrads_addGrads]
      exact backwardLoop_none_of_call_none h rank hac fuel s p d hnone ps ds i hp hd
        (fun r hr => hq r (List.mem_cons_of_mem _ hr)) _

/-- A depth bound that does not exceed the longest path from the root is too
small: the recursion nests one call per edge of that path. -/
theorem backward_none_of_le_height {α : Type} [CommRing α] (h : Heap α) (rank : Nat → Nat)
    (hac : Acyclic h rank) :
    ∀ (fuel r : Nat) (δ : Nat → α) (s : α), r < h.length →
      fuel ≤ height (rank r + 1) h r → backward fuel (addGrads h δ) r s = none
  | 0, _, _, _, _, _ => rfl
  | fuel + 1, r, δ, s, hr, hle => by
    have ht : h[r]? = some h[r] := List.getElem?_eq_getElem hr
    have hwf := hac r h[r] ht
    have hh : height (rank r + 1) h r =
        heightLoop (height (rank r) h) h[r].parents h[r].local_grads := by
      simp only [height, ht]
    rcases heightLoop_cases (height (rank r) h) h[r].parents h[r].local_grads with
      ⟨h0, _⟩ | ⟨i, p, d, hp, hd, heq⟩
    · omega
    · have hpm := hwf.2 p (List.getElem?_mem hp)
      have hfp := height_fuel h rank hac (rank p + 1) (rank r) p (by omega) hpm.2
      have ht' : (addGrads h δ)[r]? = some { h[r] with grad := h[r].grad + δ r } := by
        simp [ht]
      rw [backward_step fuel _ r s _ ht',
        set_eq_addGrads (addGrads h δ) r _ s ht', addGrads_addGrads]
      exact backwardLoop_none_of_call_none h rank hac fuel s p d
        (fun δ' g => backward_none_of_le_height h rank hac fuel p δ' g hpm.1 (by omega))
        h[r].parents h[r].local_grads i hp hd (fun q hq => (hwf.2 q hq).1) _

/-- C18 (termination): in a graph built by the constructors, parents are
constructed strictly before their children, and `backward` from any node `r`
returns for every depth bound above `L`, the length of the longest path from `r`
to a leaf: the calls nest at most `L` deep below the initial call (and a bound of
at most `L` activations is exceeded). -/
theorem backward_terminates {α : Type} [Field α] (exp : α → α) (ops : List (Op α))
    (h : Heap α) (hb : build exp ops = some h) (r : Nat) (hr : r < h.length) (s : α) :
    ∃ L h', (∀ (n : Nat) (π : List (Edge α)), IsPath h r n π → π.length ≤ L) ∧
      (∃ n π t, IsPath h r n π ∧ π.length = L ∧ h[n]? = some t ∧ t.parents = []) ∧
      (∀ fuel, L < fuel → backward fuel h r s = some h') ∧
      (∀ fuel, fuel ≤ L → backward fuel h r s = none) ∧
      (∀ (n : Nat) (t : Tensor α), h[n]? = some t → ∀ p ∈ t.parents, p < n) := by
  have hac := acyclic_build exp ops h hb
  have hac' := acyclic_height h id hac
  refine ⟨height (r + 1) h r,
    addGrads h (fun n => s * pathSum (height (id r + 1) h r + 1) h r n), ?_, ?_, ?_, ?_, ?_⟩
  · intro n π hπ
    exact isPath_length_le_height h id hac r n π hπ (r + 1) (Nat.lt_succ_self _)
  · exact exists_isPath_length_eq_height h id hac (r + 1) r hr (Nat.lt_succ_self _)
  · intro fuel hf
    exact backward_eq_rank (fun n => height (id n + 1) h n) fuel h hac' r s hr hf
  · intro fuel hf
    have := backward_none_of_le_height h id hac fuel r (fun _ => 0) s hr hf
    rwa [addGrads_zero h _ (fun _ _ => rfl)] at this
  · intro n t ht p hp
    simpa using ((hac n t ht).2 p hp).2

theorem backward_terminates_witness :
    build (fun x : ℚ => x) diamondOps = some diamondHeap ∧
    4 < (diamondHeap : Heap ℚ).length ∧
    ∃ L h', (∀ (n : Nat) (π : List (Edge ℚ)), IsPath diamondHeap 4 n π → π.length ≤ L) ∧
      (∃ n π t, IsPath (diamondHeap : Heap ℚ) 4 n π ∧ π.length = L ∧
        (diamondHeap : Heap ℚ)[n]? = some t ∧ t.parents = []) ∧
      (∀ fuel, L < fuel → backward fuel (diamondHeap : Heap ℚ) 4 1 = some h') ∧
      (∀ fuel, fuel ≤ L → backward fuel (diamondHeap : Heap ℚ) 4 1 = none) ∧
      (∀ (n : Nat) (t : Tensor ℚ), (diamondHeap : Heap ℚ)[n]? = some t →
        ∀ p ∈ t.parents, p < n) :=
  ⟨build_diamondOps _, by decide,
    backward_terminates (fun x : ℚ => x) diamondOps diamondHeap (build_diamondOps _) 4
      (by decide) 1⟩

/-! ## Invocations of `backward` -/

section Visits

variable {α : Type}

theorem visitsLoop_congr (call1 call2 : Nat → List Nat) :
    ∀ (ps : List Nat) (ds : List α), (∀ p ∈ ps, call1 p = call2 p) →
      visitsLoop call1 ps ds = visitsLoop call2 ps ds
  | [], _, _ => by simp [visitsLoop]
  | _ :: _, [], _ => by simp [visitsLoop]
  | p :: ps, d :: ds, hcall => by
    simp only [visitsLoop]
    rw [hcall p (List.mem_cons_self _ _),
      visitsLoop_congr call1 call2 ps ds (fun q hq => hcall q (List.mem_cons_of_mem _ hq))]

theorem visits_addGrads [Add α] (h : Heap α) (δ : Nat → α) :
    ∀ (fuel r : Nat), visits fuel (addGrads h δ) r = visits fuel h r
  | 0, _ => rfl
  | fuel + 1, r => by
    simp only [visits, getElem?_addGrads]
    cases h[r]? with
    | none => rfl
    | some t =>
      simp only [Option.map_some']
      congr 1
      exact visitsLoop_congr _ _ _ _ (fun p _ => visits_addGrads h δ fuel p)

theorem visits_fuel (h : Heap α) (rank : Nat → Nat) (hac : Acyclic h rank) :
    ∀ (f g r : Nat), rank r < f → rank r < g → visits f h r = visits g h r
  | 0, _, _, hf, _ => absurd hf (Nat.not_lt_zero _)
  | _ + 1, 0, _, _, hg => absurd hg (Nat.not_lt_zero _)
  | f + 1, g + 1, r, hf, hg => by
    simp only [visits]
    cases hr : h[r]? with
    | none => rfl
    | some t =>
      simp only []
      congr 1
      apply visitsLoop_congr
      intro p hp
      have hlt := ((hac r t hr).2 p hp).2
      exact visits_fuel h rank hac f g p (by omega) (by omega)

theorem count_visitsLoop (call : Nat → List Nat) (sub : Nat → List (List (Edge α))) (n : Nat)
    (hcs : ∀ p, (call p).count n = (sub p).length) :
    ∀ (ps : List Nat) (ds : List α) (i : Nat),
      (visitsLoop call ps ds).count n = (pathsLoop sub i ps ds).length
  | [], _, _ => by simp [visitsLoop, pathsLoop]
  | _ :: _, [], _ => by simp [visitsLoop, pathsLoop]
  | p :: ps, d :: ds, i => by
    simp only [visitsLoop, pathsLoop, List.count_append, List.length_append, List.length_map,
      hcs p, count_visitsLoop call sub n hcs ps ds (i + 1)]

/-- The number of invocations on `n` is the number of listed paths to `n`. -/
theorem count_visits (h : Heap α) (n : Nat) :
    ∀ (fuel r : Nat), (visits fuel h r).count n = (paths fuel h r n).length
  | 0, _ => rfl
  | fuel + 1, r => by
    simp only [visits, paths]
    cases h[r]? with
    | none => rfl
    | some t =>
      simp only [List.length_append, List.count_cons]
      rw [count_visitsLoop (visits fuel h) (fun p => paths fuel h p n) n
        (fun p => count_visits h n fuel p) t.parents t.local_grads 0]
      by_cases hrn : r = n
      · simp [hrn, Nat.add_comm]
      · simp [hrn]

end Visits

section Log

variable {α : Type} [CommRing α]

theorem backwardLogLoop_fst (call' : Heap α × List Nat → Nat → α → Option (Heap α × List Nat))
    (call : Heap α → Nat → α → Option (Heap α)) (s : α)
    (hcall : ∀ st p g, (call' st p g).map Prod.fst = call st.1 p g) :
    ∀ (ps : List Nat) (ds : List α) (st : Heap α × List Nat),
      (backwardLogLoop call' s ps ds st).map Prod.fst = backwardLoop call s ps ds st.1
  | [], _, _ => rfl
  | _ :: _, [], _ => rfl
  | p :: ps, d :: ds, st => by
    simp only [backwardLogLoop, backwardLoop]
    have h1 := hcall st p (s * d)
    cases hc : call' st p (s * d) with
    | none =>
      rw [hc] at h1
      simp only [Option.map_none'] at h1
      simp [← h1]
    | some st1 =>
      rw [hc] at h1
      simp only [Option.map_some'] at h1
      simp only [← h1]
      exact backwardLogLoop_fst call' call s hcall ps ds st1

/-- Forgetting the log, `backwardLog` is `backward`. -/
theorem backwardLog_fst :
    ∀ (fuel : Nat) (st : Heap α × List Nat) (r : Nat) (s : α),
      (backwardLog fuel st r s).map Prod.fst = backward fuel st.1 r s
  | 0, _, _, _ => rfl
  | fuel + 1, st, r, s => by
    simp only [backwardLog, backward]
    cases st.1[r]? with
    | none => rfl
    | some t =>
      simp only []
      exact backwardLogLoop_fst _ _ s (backwardLog_fst fuel) _ _ _

theorem backwardLogLoop_eq (h : Heap α) (rank : Nat → Nat) (fuel : Nat) (s : α)
    (ih : ∀ (h1 : Heap α) (log : List Nat), Acyclic h1 rank → ∀ (p : Nat) (g : α),
      p < h1.length → rank p < fuel →
      backwardLog fuel (h1, log) p g =
        some (addGrads h1 (fun n => g * pathSum fuel h1 p n), log ++ visits fuel h1 p))
    (hac : Acyclic h rank) :
    ∀ (ps : List Nat) (ds : List α) (i : Nat) (δ : Nat → α) (log : List Nat),
      ps.length = ds.length → (∀ p ∈ ps, p < h.length ∧ rank p < fuel) →
      backwardLogLoop (backwardLog fuel) s ps ds (addGrads h δ, log) =
        some (addGrads h (fun n => δ n +
          s * ((pathsLoop (fun p => paths fuel h p n) i ps ds).map pathWeight).sum),
          log ++ visitsLoop (visits fuel h) ps ds)
  | [], _, _, _, _, _, _ => by simp [backwardLogLoop, pathsLoop, visitsLoop]
  | _ :: _, [], _, _, _, hlen, _ => by simp at hlen
  | p :: ps, d :: ds, i, δ, log, hlen, hps => by
    have hp := hps p (List.mem_cons_self _ _)
    have h1 := ih (addGrads h δ) log (acyclic_addGrads h δ rank hac) p (s * d)
      (by simpa using hp.1) hp.2
    simp only [backwardLogLoop, h1, addGrads_addGrads, visits_addGrads]
    rw [backwardLogLoop_eq h rank fuel s ih hac ps ds (i + 1) _ _ (by simpa using hlen)
      (fun q hq => hps q (List.mem_cons_of_mem _ hq))]
    simp only [visitsLoop, List.append_assoc, Option.some.injEq, Prod.mk.injEq, and_true]
    apply addGrads_congr
    intro n _
    rw [sum_pathsLoop_cons, pathSum_addGrads]
    simp only [pathSum]
    ring

/-- The instrumented traversal: the heap is the one `backward` leaves, and the log
grows by the trace `visits`. -/
theorem backwardLog_eq (rank : Nat → Nat) :
    ∀ (fuel : Nat) (h : Heap α) (log : List Nat), Acyclic h rank → ∀ (r : Nat) (s : α),
      r < h.length → rank r < fuel →
      backwardLog fuel (h, log) r s =
        some (addGrads h (fun n => s * pathSum fuel h r n), log ++ visits fuel h r)
  | 0, _, _, _, _, _, _, hf => absurd hf (Nat.not_lt_zero _)
  | fuel + 1, h, log, hac, r, s, hr, hf => by
    have ht : h[r]? = some h[r] := List.getElem?_eq_getElem hr
    simp only [backwardLog, visits, ht]
    rw [set_eq_addGrads h r h[r] s ht]
    have hwf := hac r h[r] ht
    rw [backwardLogLoop_eq h rank fuel s
      (fun h1 log1 hac1 p g hp hfp => backwardLog_eq rank fuel h1 log1 hac1 p g hp hfp)
      hac h[r].parents h[r].local_grads 0 _ _ hwf.1
      (fun p hp => ⟨(hwf.2 p hp).1, by have := (hwf.2 p hp).2; omega⟩)]
    simp only [List.append_assoc, List.singleton_append, Option.some.injEq, Prod.mk.injEq,
      and_true]
    apply addGrads_congr
    intro n _
    rw [pathSum_succ fuel h r n h[r] ht]
    split <;> ring

end Log

/-- A duplicate-free list whose only possible member is `a`, and which has `a`,
has length 1. -/
theorem length_eq_one_of_nodup {β : Type} (l : List β) (a : β) (hnd : l.Nodup)
    (hall : ∀ b ∈ l, b = a) (ha : a ∈ l) : l.length = 1 := by
  match l, hnd, hall, ha with
  | [], _, _, ha => simp at ha
  | [_], _, _, _ => rfl
  | x :: y :: l, hnd, hall, _ =>
    have hx := hall x (by simp)
    have hy := hall y (by simp)
    rw [hx, hy] at hnd
    simp at hnd

/-- C19 (visits equal paths): on a well-formed acyclic graph, during one call
`backward(r, seed)` the traversal is invoked on (and increments the grad of) every
node `n` once per directed edge-path from `r` to `n`: once on `r` itself, never on
a node with no path from `r`. -/
theorem visits_eq_paths {α : Type} [CommRing α] (h : Heap α) (rank : Nat → Nat)
    (hac : Acyclic h rank) (r : Nat) (hr : r < h.length) (s : α) :
    ∃ h' log, (∀ fuel, rank r < fuel →
        backwardLog fuel (h, []) r s = some (h', log) ∧ backward fuel h r s = some h') ∧
      log.count r = 1 ∧
      ∀ n, ∃ ps : List (List (Edge α)), ps.Nodup ∧ (∀ π, π ∈ ps ↔ IsPath h r n π) ∧
        log.count n = ps.length ∧ ((∀ π, ¬ IsPath h r n π) → log.count n = 0) := by
  have hmem := fun n => mem_paths_iff h rank hac (rank r + 1) r n (Nat.lt_succ_self _)
  refine ⟨addGrads h (fun n => s * pathSum (rank r + 1) h r n), visits (rank r + 1) h r, ?_, ?_,
    ?_⟩
  · intro fuel hf
    refine ⟨?_, backward_eq_rank rank fuel h hac r s hr hf⟩
    rw [backwardLog_eq rank fuel h [] hac r s hr hf,
      visits_fuel h rank hac fuel (rank r + 1) r hf (Nat.lt_succ_self _)]
    simp only [List.nil_append, Option.some.injEq, Prod.mk.injEq, and_true]
    apply addGrads_congr
    intro n _
    rw [pathSum_fuel h rank hac fuel (rank r + 1) r n hf (Nat.lt_succ_self _)]
  · rw [count_visits]
    apply length_eq_one_of_nodup _ [] (nodup_paths h r _ r)
    · intro π hπ
      have := isPath_rank_le h rank hac r r π ((hmem r π).mp hπ)
      exact List.length_eq_zero.mp (by omega)
    · exact (hmem r []).mpr (IsPath.nil r hr)
  · intro n
    refine ⟨paths (rank r + 1) h r n, nodup_paths h n _ r, hmem n, count_visits h n _ r, ?_⟩
    intro hno
    rw [count_visits]
    cases hp : paths (rank r + 1) h r n with
    | nil => rfl
    | cons π l =>
      exact absurd ((hmem n π).mp (by rw [hp]; exact List.mem_cons_self _ _)) (hno π)

theorem visits_eq_paths_witness :
    Acyclic diamond id ∧ 4 < diamond.length ∧
    ∃ h' log, (∀ fuel, id 4 < fuel →
        backwardLog fuel (diamond, []) 4 1 = some (h', log) ∧
          backward fuel diamond 4 1 = some h') ∧
      log.count 4 = 1 ∧
      ∀ n, ∃ ps : List (List (Edge ℤ)), ps.Nodup ∧ (∀ π, π ∈ ps ↔ IsPath diamond 4 n π) ∧
        log.count n = ps.length ∧ ((∀ π, ¬ IsPath diamond 4 n π) → log.count n = 0) :=
  ⟨acyclic_diamond, by decide, visits_eq_paths diamond id acyclic_diamond 4 (by decide) 1⟩

/-- On the diamond, backward from `e` is invoked on `e`, `c`, `a`, `b`, `d`, `a`,
`b` in this order: twice on each of the leaves, which two paths reach. -/
theorem diamond_log :
    (backwardLog 3 (diamond, []) 4 1).map Prod.snd = some [4, 2, 0, 1, 3, 0, 1] := by
  decide

/-! ## The training step -/

theorem initParams_eq {α : Type} [Zero α] (r1 r2 r3 r4 r5 r6 r7 r8 r9 : α) :
    initParams r1 r2 r3 r4 r5 r6 r7 r8 r9 =
      (paramHeap [r1, r2, r3, r4, r5, r6, r7, r8, r9] 0 (fun _ => 0), mainParams) :=
  rfl

theorem resetGrads_paramHeap {α : Type} [Zero α] (w1 w2 w3 w4 b1 b2 w5 w6 b3 : α)
    (g : Nat → α) :
    resetGrads (paramHeap [w1, w2, w3, w4, b1, b2, w5, w6, b3] 0 g) mainParams.resetList =
      paramHeap [w1, w2, w3, w4, b1, b2, w5, w6, b3] 0 (fun _ => 0) := by
  simp [resetGrads, paramHeap, mainParams, Params.resetList, List.mapIdx_cons]

theorem updateValue_eq {α : Type} [Field α] (h : Heap α) (p : Nat) (h' : Heap α)
    (hu : updateValue h p = some h') :
    h' = h.mapIdx (fun n t => if n = p then { t with value := t.value - lr * t.grad } else t) := by
  simp only [updateValue] at hu
  cases ht : h[p]? with
  | none => simp [ht] at hu
  | some t =>
    simp only [ht, Option.some.injEq] at hu
    subst hu
    apply List.ext_getElem?
    intro n
    simp only [List.getElem?_set, List.getElem?_mapIdx]
    by_cases hpn : p = n
    · subst hpn
      have hlt := (List.getElem?_eq_some_iff.mp ht).1
      simp [hlt, ht]
    · have : ¬ n = p := fun h => hpn h.symm
      simp only [hpn, if_false, this]
      cases h[n]? <;> rfl

/-- The sequence of update statements on distinct valid pointers returns, and
changes the value of exactly the listed nodes. -/
theorem foldlM_updateValue {α : Type} [Field α] :
    ∀ (ps : List Nat) (h : Heap α), ps.Nodup → (∀ p ∈ ps, p < h.length) →
      ps.foldlM updateValue h = some (h.mapIdx (fun n t =>
        if n ∈ ps then { t with value := t.value - lr * t.grad } else t))
  | [], h, _, _ => by
    simp only [List.foldlM_nil, Option.pure_def, Option.some.injEq]
    apply List.ext_getElem?
    intro n
    simp only [List.getElem?_mapIdx, List.not_mem_nil, if_false]
    cases h[n]? <;> rfl
  | p :: ps, h, hnd, hval => by
    have hp : p < h.length := hval p (List.mem_cons_self _ _)
    have h1 : updateValue h p = some (h.set p
        { h[p] with value := h[p].value - lr * h[p].grad }) := by
      simp only [updateValue, List.getElem?_eq_getElem hp]
    have hnp : p ∉ ps := (List.nodup_cons.mp hnd).1
    simp only [List.foldlM_cons, Option.bind_eq_bind, h1, Option.some_bind]
    rw [foldlM_updateValue ps _ (List.nodup_cons.mp hnd).2
      (fun q hq => by simpa using hval q (List.mem_cons_of_mem _ hq))]
    congr 1
    apply List.ext_getElem?
    intro n
    simp only [List.getElem?_mapIdx, List.getElem?_set, List.mem_cons]
    by_cases hn : p = n
    · subst hn
      simp [hp, hnp, List.getElem?_eq_getElem hp]
    · have hn' : ¬ n = p := fun e => hn e.symm
      simp only [hn, if_false, hn', false_or]

theorem exists_nine {β : Type} (vs : List β) (hvs : vs.length = 9) :
    ∃ a b c d e f g h i, vs = [a, b, c, d, e, f, g, h, i] := by
  match vs, hvs with
  | [a, b, c, d, e, f, g, h, i], _ => exact ⟨a, b, c, d, e, f, g, h, i, rfl⟩

theorem iterOps_getElem? {β : Type} (vs : List β) (in0 in1 : β) (k : Nat) (hk : k < vs.length) :
    (iterOps vs in0 in1)[k]? = some (.leaf vs[k]) := by
  simp only [iterOps]
  rw [List.getElem?_append_left (by simpa using hk)]
  simp [List.getElem?_eq_getElem hk]

theorem iterOps_set {β : Type} (vs : List β) (in0 in1 t : β) (k : Nat) (hk : k < vs.length) :
    (iterOps vs in0 in1).set k (.leaf t) = iterOps (vs.set k t) in0 in1 := by
  simp only [iterOps]
  rw [List.set_append_left _ _ (by simpa using hk), List.map_set]

theorem forward_eq_build {α : Type} [Field α] (exp : α → α)
    (w1 w2 w3 w4 b1 b2 w5 w6 b3 in0 in1 : α) :
    forward exp (paramHeap [w1, w2, w3, w4, b1, b2, w5, w6, b3] 0 (fun _ => 0)) mainParams
        in0 in1 =
      (build exp (iterOps [w1, w2, w3, w4, b1, b2, w5, w6, b3] in0 in1)).map
        (fun h => (h, 25)) := by
  simp only [forward, make_shared, mul, add, sigmoid, Tensor.new, paramHeap, mainParams,
    build, iterOps, step, List.map, List.cons_append, List.nil_append, List.foldlM,
    List.length_nil, List.length_cons, List.length_append, List.append_assoc,
    List.getElem?_cons_zero, List.getElem?_cons_succ, Option.bind, Option.map,
    Option.some.injEq, Prod.mk.injEq, sigmoidNode_eq, mulNode_eq, addNode_eq,
    List.getElem?_append, Option.bind_eq_bind, Option.some_bind]
  simp

theorem forward_eq_build_list {α : Type} [Field α] (exp : α → α) (vs : List α)
    (hvs : vs.length = 9) (in0 in1 : α) :
    forward exp (paramHeap vs 0 (fun _ => 0)) mainParams in0 in1 =
      (build exp (iterOps vs in0 in1)).map (fun h => (h, 25)) := by
  obtain ⟨a, b, c, d, e, f, g, h, i, rfl⟩ := exists_nine vs hvs
  exact forward_eq_build exp a b c d e f g h i in0 in1

theorem wfOps_iterOps {β : Type} (vs : List β) (hvs : vs.length = 9) (in0 in1 : β) :
    WFOps (iterOps vs in0 in1) := by
  obtain ⟨a, b, c, d, e, f, g, h, i, rfl⟩ := exists_nine vs hvs
  intro r op hr x hx
  have hr26 : r < 26 := (List.getElem?_eq_some_iff.mp hr).1
  interval_cases r <;> simp [iterOps] at hr <;> subst hr <;> simp [Op.operands] at hx <;> omega

theorem lossAt_eq {α : Type} [Field α] (exp : α → α) (vs : List α) (hvs : vs.length = 9)
    (in0 in1 y : α) :
    lossAt exp vs in0 in1 y = lossOf (builtValue exp (iterOps vs in0 in1) 25) y := by
  obtain ⟨H, hH⟩ := build_of_wfOps exp _ (wfOps_iterOps vs hvs in0 in1)
  simp only [lossAt, forward_eq_build_list exp vs hvs, hH, Option.map_some', builtValue]

theorem hasDerivAt_lossOf (V : ℝ → ℝ) (D v y : ℝ) (hV : HasDerivAt V D v) :
    HasDerivAt (fun t => lossOf (V t) y) ((V v - y) * D) v := by
  have h1 : HasDerivAt (fun t => V t - y) D v := hV.sub_const y
  have h2 := ((h1.const_mul (0.5 : ℝ)).mul h1)
  simp only [lossOf]
  convert h2 using 1
  ring

theorem length_paramHeap {β : Type} (g : Nat → β) :
    ∀ (vs : List β) (i : Nat), (paramHeap vs i g).length = vs.length
  | [], _ => rfl
  | _ :: vs, i => by simp [paramHeap, length_paramHeap g vs (i + 1)]

theorem resetGrads_paramHeap_list {α : Type} [Zero α] (vs : List α) (hvs : vs.length = 9)
    (g : Nat → α) :
    resetGrads (paramHeap vs 0 g) mainParams.resetList = paramHeap vs 0 (fun _ => 0) := by
  obtain ⟨a, b, c, d, e, f, g', h, i, rfl⟩ := exists_nine vs hvs
  exact resetGrads_paramHeap a b c d e f g' h i g

theorem mem_updateList (k : Nat) (hk : k < 9) : k ∈ mainParams.updateList := by
  interval_cases k <;> simp [mainParams, Params.updateList]

theorem valueAt_updated {α : Type} [Field α] (h : Heap α) (ps : List Nat) (k : Nat)
    (hk : k < h.length) (hmem : k ∈ ps) :
    valueAt (h.mapIdx (fun n t =>
      if n ∈ ps then { t with value := t.value - lr * t.grad } else t)) k =
      valueAt h k - lr * gradAt h k := by
  simp [valueAt, gradAt, List.getElem?_mapIdx, List.getElem?_eq_getElem hk, hmem]

section Shape

variable {α : Type}

theorem SameShape.refl (h : Heap α) : SameShape h h :=
  ⟨rfl, fun _ t ht => ⟨t, ht, rfl, rfl, rfl⟩⟩

theorem SameShape.trans {h1 h2 h3 : Heap α} (h12 : SameShape h1 h2) (h23 : SameShape h2 h3) :
    SameShape h1 h3 := by
  refine ⟨h23.1.trans h12.1, ?_⟩
  intro n t ht
  obtain ⟨t2, ht2, hv2, hp2, hd2⟩ := h12.2 n t ht
  obtain ⟨t3, ht3, hv3, hp3, hd3⟩ := h23.2 n t2 ht2
  exact ⟨t3, ht3, hv3.trans hv2, hp3.trans hp2, hd3.trans hd2⟩

theorem sameShape_set_grad (h : Heap α) (r : Nat) (t : Tensor α) (g : α)
    (ht : h[r]? = some t) : SameShape h (h.set r { t with grad := g }) := by
  refine ⟨by simp, ?_⟩
  intro n u hu
  by_cases hrn : r = n
  · subst hrn
    have hlt := (List.getElem?_eq_some_iff.mp ht).1
    rw [ht] at hu
    cases hu
    exact ⟨{ t with grad := g }, by simp [hlt], rfl, rfl, rfl⟩
  · exact ⟨u, by rw [List.getElem?_set_ne hrn]; exact hu, rfl, rfl, rfl⟩

theorem sameShape_backwardLoop [Mul α] (call : Heap α → Nat → α → Option (Heap α)) (s : α)
    (hcall : ∀ h p g h', call h p g = some h' → SameShape h h') :
    ∀ (ps : List Nat) (ds : List α) (h h' : Heap α),
      backwardLoop call s ps ds h = some h' → SameShape h h'
  | [], _, h, h', hl => by
    simp only [backwardLoop, Option.some.injEq] at hl
    subst hl
    exact SameShape.refl h
  | _ :: _, [], _, _, hl => by simp [backwardLoop] at hl
  | p :: ps, d :: ds, h, h', hl => by
    simp only [backwardLoop] at hl
    cases h1 : call h p (s * d) with
    | none => simp [h1] at hl
    | some h2 =>
      simp only [h1] at hl
      exact (hcall h p (s * d) h2 h1).trans (sameShape_backwardLoop call s hcall ps ds h2 h' hl)

/-- Whenever `backward` returns, on any heap, it has changed nothing but grads. -/
theorem sameShape_backward [Add α] [Mul α] :
    ∀ (fuel : Nat) (h : Heap α) (r : Nat) (s : α) (h' : Heap α),
      backward fuel h r s = some h' → SameShape h h'
  | 0, _, _, _, _, hb => by simp [backward] at hb
  | fuel + 1, h, r, s, h', hb => by
    rw [backward] at hb
    cases ht : h[r]? with
    | none => simp [ht] at hb
    | some t =>
      simp only [ht] at hb
      exact (sameShape_set_grad h r t _ ht).trans
        (sameShape_backwardLoop _ s (sameShape_backward fuel) _ _ _ _ hb)

theorem sameShape_resetGrads [Zero α] (h : Heap α) (l : List Nat) :
    SameShape h (resetGrads h l) := by
  refine ⟨by simp [resetGrads], ?_⟩
  intro n t ht
  simp only [resetGrads, List.getElem?_mapIdx, ht, Option.map_some']
  by_cases hn : n ∈ l
  · exact ⟨{ t with grad := 0 }, by simp [hn], rfl, rfl, rfl⟩
  · exact ⟨t, by simp [hn], rfl, rfl, rfl⟩

end Shape

section Training

theorem getElem?_paramHeap {β : Type} (g : Nat → β) :
    ∀ (vs : List β) (i n : Nat),
      (paramHeap vs i g)[n]? =
        (vs[n]?).map (fun v => { value := v, grad := g (i + n), parents := [], local_grads := [] })
  | [], _, _ => by simp [paramHeap]
  | v :: vs, i, 0 => by simp [paramHeap]
  | v :: vs, i, n + 1 => by
    simp only [paramHeap, List.getElem?_cons_succ, getElem?_paramHeap g vs (i + 1) n]
    congr 2
    funext v
    congr 2
    omega

theorem mem_updateList_iff (n : Nat) : n ∈ mainParams.updateList ↔ n < 9 := by
  simp only [mainParams, Params.updateList, List.mem_cons, List.mem_singleton, List.not_mem_nil,
    or_false]
  omega

/-- The update of `main` on a heap that holds the nine parameters: it returns, and
it writes `value - lr * grad` into the value of each parameter and nothing else. -/
theorem update_frame {α : Type} [Field α] (h : Heap α) (hlen : 9 ≤ h.length) :
    ∃ h', update h mainParams = some h' ∧ h'.length = h.length ∧
      ∀ (n : Nat) (t : Tensor α), h[n]? = some t →
        h'[n]? = some { t with value := if n < 9 then t.value - lr * t.grad else t.value } := by
  have hup := foldlM_updateValue mainParams.updateList h (by decide)
    (fun p hp => by have := (mem_updateList_iff p).mp hp; omega)
  refine ⟨_, hup, by simp, ?_⟩
  intro n t ht
  simp only [List.getElem?_mapIdx, ht, Option.map_some', mem_updateList_iff]
  split <;> rfl

/-- No path leads from `r` to a node that is the parent of no node up to `r`. -/
theorem no_path_of_not_parent {β : Type} (h : Heap β)
    (hord : ∀ (m : Nat) (t : Tensor β), h[m]? = some t → ∀ p ∈ t.parents, p < m)
    (r n : Nat) (hpar : ∀ (m : Nat) (t : Tensor β), h[m]? = some t → m ≤ r → n ∉ t.parents) :
    ∀ (r' : Nat) (π : List (Edge β)), r' ≤ r → r' ≠ n → ¬ IsPath h r' n π := by
  intro r' π hle hne hπ
  induction hπ with
  | nil r0 _ => exact hne rfl
  | cons r0 n0 t e π ht hp _ _ ih =>
    have hmem : e.parent ∈ t.parents := List.getElem?_mem hp
    have hlt := hord r0 t ht e.parent hmem
    by_cases hen : e.parent = n0
    · exact hpar r0 t ht hle (hen ▸ hmem)
    · exact ih hpar (by omega) hen

/-- The only path from the output `o1` of the forward pass to `b3` is
`o1 -> (.. + b3) -> b3`, of weight `o * (1 - o)`. -/
theorem pathSum_b3 {α : Type} [Field α] (exp : α → α) (vs : List α) (hvs : vs.length = 9)
    (in0 in1 : α) (H : Heap α) (hH : build exp (iterOps vs in0 in1) = some H) :
    pathSum 26 H 25 8 = valueAt H 25 * (1 - valueAt H 25) := by
  obtain ⟨a, b, c, d, e, f, g, h, i, rfl⟩ := exists_nine vs hvs
  have hac := acyclic_build exp _ H hH
  have h25 : (iterOps [a, b, c, d, e, f, g, h, i] in0 in1)[25]? = some (.sigmoid 24) := rfl
  have h24 : (iterOps [a, b, c, d, e, f, g, h, i] in0 in1)[24]? = some (.add 23 8) := rfl
  have h8 : (iterOps [a, b, c, d, e, f, g, h, i] in0 in1)[8]? = some (.leaf i) := rfl
  have hv25 : valueAt H 25 = 1 / (1 + exp (-valueAt H 24)) := by
    rw [← builtValue_eq exp _ H hH, ← builtValue_eq exp _ H hH]
    exact builtValue_sigmoid exp _ (wfOps_of_build exp _ H hH) 25 24 h25
  have hno : pathSum 24 H 23 8 = 0 := by
    apply pathSum_eq_zero_of_no_path
    intro π
    apply no_path_of_not_parent H (fun m t ht p hp => by simpa using ((hac m t ht).2 p hp).2)
      23 8 ?_ 23 π (le_refl _) (by decide)
    intro m t ht hm hmem
    have hm26 : m < 26 := by omega
    obtain ⟨_, hnode⟩ := (build_spec exp _ H hH).2 m _
      (List.getElem?_eq_getElem (by simpa [iterOps] using hm26))
    rw [ht] at hnode
    have hpar := (opNode_shape exp H _ t hnode.symm).1
    rw [hpar] at hmem
    interval_cases m <;> simp [iterOps, Op.operands] at hmem
  rw [pathSum_build_sigmoid exp _ H hH 25 24 h25 25 8,
    pathSum_build_add exp _ H hH 24 23 8 h24 24 8,
    pathSum_build_leaf exp _ H hH 8 i h8 23 8, hno, hv25]
  simp

end Training

/-- One training step of `main` on the nine parameter leaves (values `vs`, any
grads): what the forward pass builds, what `backward` leaves, what the update
writes, and that the heap left at the end of the loop body is again nine parameter
leaves. -/
theorem trainStep_spec (vs : List ℝ) (hvs : vs.length = 9) (g : Nat → ℝ) (x1 x2 y : ℝ) :
    ∃ h1 h2 h3,
      build Real.exp (iterOps vs x1 x2) = some h1 ∧
      forward Real.exp (resetGrads (paramHeap vs 0 g) mainParams.resetList) mainParams x1 x2 =
        some (h1, 25) ∧
      (∀ fuel, 25 < fuel → backward fuel h1 25 (valueAt h1 25 - y) = some h2 ∧
        trainStep Real.exp fuel (paramHeap vs 0 g) mainParams x1 x2 y = some (h3.take 9)) ∧
      update h2 mainParams = some h3 ∧
      (∃ vs' g', vs'.length = 9 ∧ h3.take 9 = paramHeap vs' 0 g') ∧
      ∀ k, k < 9 → ∃ v, vs[k]? = some v ∧ valueAt h1 k = v ∧ valueAt h2 k = v ∧
        gradAt h2 k = (valueAt h1 25 - y) * pathSum 26 h1 25 k ∧
        HasDerivAt (fun t => lossAt Real.exp (vs.set k t) x1 x2 y) (gradAt h2 k) v ∧
        valueAt h3 k = v - 0.5 * gradAt h2 k := by
  obtain ⟨H, hH⟩ := build_of_wfOps Real.exp _ (wfOps_iterOps vs hvs x1 x2)
  have hlen : H.length = 26 := by
    rw [(build_spec Real.exp _ H hH).1]
    simp [iterOps, hvs]
  have hac := acyclic_build Real.exp _ H hH
  have hfw : forward Real.exp (resetGrads (paramHeap vs 0 g) mainParams.resetList) mainParams
      x1 x2 = some (H, 25) := by
    rw [resetGrads_paramHeap_list vs hvs, forward_eq_build_list Real.exp vs hvs, hH]
    rfl
  have hbw : ∀ fuel, 25 < fuel → backward fuel H 25 (valueAt H 25 - y) =
      some (addGrads H (fun n => (valueAt H 25 - y) * pathSum (id 25 + 1) H 25 n)) :=
    fun fuel hf => backward_eq_rank id fuel H hac 25 _ (by omega) hf
  have hup := foldlM_updateValue mainParams.updateList
    (addGrads H (fun n => (valueAt H 25 - y) * pathSum (id 25 + 1) H 25 n)) (by decide)
    (fun p hp => by
      simp only [length_addGrads, hlen]
      have := (mem_updateList_iff p).mp hp
      omega)
  have hleafk : ∀ k (hk : k < vs.length), H[k]? = some (Tensor.new vs[k]) := fun k hk =>
    build_getElem_leaf Real.exp _ H hH k _ (iterOps_getElem? vs x1 x2 k hk)
  refine ⟨H, _, _, hH, hfw, ?_, hup, ?_, ?_⟩
  · intro fuel hf
    refine ⟨hbw fuel hf, ?_⟩
    simp only [trainStep, hfw, Option.some_bind, hbw fuel hf, update, hup, Option.map_some',
      length_paramHeap, hvs]
  · refine ⟨(List.range 9).map (fun k => vs.getD k 0 - lr * ((valueAt H 25 - y) *
      pathSum (id 25 + 1) H 25 k)), fun k => (valueAt H 25 - y) * pathSum (id 25 + 1) H 25 k,
      by simp, ?_⟩
    apply List.ext_getElem?
    intro n
    rw [getElem?_paramHeap, List.getElem?_take]
    by_cases hn : n < 9
    · have hnv : n < vs.length := by omega
      have hvn : vs.getD n 0 = vs[n] := by
        simp [List.getD, List.getElem?_eq_getElem hnv]
      simp only [hn, if_true, List.getElem?_mapIdx, getElem?_addGrads, hleafk n hnv,
        Option.map_some', mem_updateList_iff, List.getElem?_map, List.getElem?_range hn,
        Tensor.new, zero_add, hvn]
    · simp only [hn, if_false, List.getElem?_map,
        List.getElem?_eq_none (show (List.range 9).length ≤ n by simp; omega), Option.map_none']
  · intro k hk
    have hkv : k < vs.length := by omega
    have hk26 : k < H.length := by omega
    have hl := iterOps_getElem? vs x1 x2 k hkv
    have hleaf := hleafk k hkv
    have hval : valueAt H k = vs[k] := by simp [valueAt, hleaf, Tensor.new]
    have hgrad : gradAt (addGrads H (fun n => (valueAt H 25 - y) * pathSum (id 25 + 1) H 25 n)) k
        = (valueAt H 25 - y) * pathSum 26 H 25 k := by
      rw [gradAt_addGrads H _ k hk26]
      simp [gradAt, hleaf, Tensor.new]
    refine ⟨vs[k], List.getElem?_eq_getElem hkv, hval, by rw [valueAt_addGrads, hval], hgrad,
      ?_, ?_⟩
    · have hd := hasDerivAt_builtValue _ H hH k vs[k] hl 26 25 (by omega)
        (by simp [iterOps, hvs])
      have hloss := hasDerivAt_lossOf _ _ _ y hd
      have hself : builtValue Real.exp ((iterOps vs x1 x2).set k (.leaf vs[k])) 25 =
          valueAt H 25 := by
        rw [set_leaf_self _ k _ hl, builtValue_eq Real.exp _ H hH]
      rw [hself] at hloss
      rw [hgrad]
      have hfun : (fun t => lossAt Real.exp (vs.set k t) x1 x2 y) = fun t =>
          lossOf (builtValue Real.exp ((iterOps vs x1 x2).set k (.leaf t)) 25) y := by
        funext t
        rw [lossAt_eq Real.exp _ (by simp [hvs]), iterOps_set vs x1 x2 t k hkv]
      rw [hfun]
      exact hloss
    · have hk2 : k < (addGrads H (fun n => (valueAt H 25 - y) *
          pathSum (id 25 + 1) H 25 n)).length := by simpa using hk26
      rw [valueAt_updated _ _ k hk2 (mem_updateList k hk), valueAt_addGrads, hval]
      rfl

/-- The output of a sigmoid node lies strictly between 0 and 1. -/
theorem logistic_mem_Ioo (z : ℝ) :
    0 < 1 / (1 + Real.exp (-z)) ∧ 1 / (1 + Real.exp (-z)) < 1 := by
  have he : 0 < Real.exp (-z) := Real.exp_pos _
  constructor
  · positivity
  · rw [div_lt_one (by positivity)]
    linarith

/-- In a training step whose target is 0 or 1 (every sample of `main`), the update
changes the value of the parameter leaf `b3`. -/
theorem update_changes_b3 (vs : List ℝ) (hvs : vs.length = 9) (g : Nat → ℝ) (x1 x2 y : ℝ)
    (hy : y ≤ 0 ∨ 1 ≤ y) :
    ∃ h1 h2 h3,
      forward Real.exp (resetGrads (paramHeap vs 0 g) mainParams.resetList) mainParams x1 x2 =
        some (h1, 25) ∧
      backward 26 h1 25 (valueAt h1 25 - y) = some h2 ∧
      update h2 mainParams = some h3 ∧
      trainStep Real.exp 26 (paramHeap vs 0 g) mainParams x1 x2 y = some (h3.take 9) ∧
      valueAt h3 8 ≠ valueAt h2 8 := by
  obtain ⟨h1, h2, h3, hH, hfw, hbw, hup, _, hk⟩ := trainStep_spec vs hvs g x1 x2 y
  obtain ⟨v, _, _, hv2, hgrad, _, hv3⟩ := hk 8 (by decide)
  refine ⟨h1, h2, h3, hfw, (hbw 26 (by decide)).1, hup, (hbw 26 (by decide)).2, ?_⟩
  have h25 : (iterOps vs x1 x2)[25]? = some (.sigmoid 24) := by
    obtain ⟨a, b, c, d, e, f, g, h, i, rfl⟩ := exists_nine vs hvs
    rfl
  have hv25 : valueAt h1 25 = 1 / (1 + Real.exp (-valueAt h1 24)) := by
    rw [← builtValue_eq Real.exp _ h1 hH, ← builtValue_eq Real.exp _ h1 hH]
    exact builtValue_sigmoid Real.exp _ (wfOps_of_build Real.exp _ h1 hH) 25 24 h25
  obtain ⟨hpos, hlt⟩ := logistic_mem_Ioo (valueAt h1 24)
  rw [← hv25] at hpos hlt
  rw [hv3, hv2, hgrad, pathSum_b3 Real.exp vs hvs x1 x2 h1 hH]
  have hne : (valueAt h1 25 - y) * (valueAt h1 25 * (1 - valueAt h1 25)) ≠ 0 := by
    apply mul_ne_zero
    · rcases hy with hy | hy <;> intro h0 <;> linarith
    · apply mul_ne_zero <;> intro h0 <;> linarith
  intro heq
  apply hne
  linarith

/-- C14, as stated, fails on the update step: in the first training iteration of
`main` (inputs `(0, 0)`, target 0; parameters initialised to `1/2`), the update
changes the value of the already-constructed leaf `b3`. -/
theorem update_mutates_value :
    ∃ h1 h2 h3,
      forward Real.exp
        (resetGrads (initParams (1 / 2 : ℝ) (1 / 2) (1 / 2) (1 / 2) (1 / 2) (1 / 2) (1 / 2) (1 / 2)
          (1 / 2)).1 mainParams.resetList) mainParams 0 0 = some (h1, 25) ∧
      backward 26 h1 25 (valueAt h1 25 - 0) = some h2 ∧
      update h2 mainParams = some h3 ∧
      trainStep Real.exp 26
        (initParams (1 / 2 : ℝ) (1 / 2) (1 / 2) (1 / 2) (1 / 2) (1 / 2) (1 / 2) (1 / 2) (1 / 2)).1
        mainParams 0 0 0 = some (h3.take 9) ∧
      valueAt h3 8 ≠ valueAt h2 8 :=
  update_changes_b3 [1 / 2, 1 / 2, 1 / 2, 1 / 2, 1 / 2, 1 / 2, 1 / 2, 1 / 2, 1 / 2] rfl
    (fun _ => 0) 0 0 0 (Or.inl (le_refl _))

theorem add_eq_append {α : Type} [Zero α] [One α] [Add α] (h : Heap α) (a b : Nat)
    (h' : Heap α) (r : Nat) (hadd : add h a b = some (h', r)) : ∃ t, h' = h ++ [t] := by
  simp only [add] at hadd
  cases ha : h[a]? <;> cases hb : h[b]? <;> simp [ha, hb] at hadd
  exact ⟨_, hadd.1.symm⟩

theorem mul_eq_append {α : Type} [Zero α] [Mul α] (h : Heap α) (a b : Nat)
    (h' : Heap α) (r : Nat) (hmul : mul h a b = some (h', r)) : ∃ t, h' = h ++ [t] := by
  simp only [mul] at hmul
  cases ha : h[a]? <;> cases hb : h[b]? <;> simp [ha, hb] at hmul
  exact ⟨_, hmul.1.symm⟩

theorem sigmoid_eq_append {α : Type} [Field α] (exp : α → α) (h : Heap α) (x : Nat)
    (h' : Heap α) (r : Nat) (hs : sigmoid exp h x = some (h', r)) : ∃ t, h' = h ++ [t] := by
  simp only [sigmoid] at hs
  cases hx : h[x]? <;> simp [hx] at hs
  exact ⟨_, hs.1.symm⟩

/-- C14 (amended): the constructors, `backward` and the reset of grads leave the
value and the edges of every already-constructed node as they were; the update of
`main` (lines 104-112) keeps the edges and the grad of every node and the value of
every node but the nine parameters, whose value becomes `value - lr * grad`. -/
theorem value_edges_frame {α : Type} [Field α] (exp : α → α) :
    (∀ (h : Heap α) (v : α) (n : Nat), n < h.length → (make_shared h v).1[n]? = h[n]?) ∧
    (∀ (h : Heap α) (a b : Nat) (h' : Heap α) (r : Nat), add h a b = some (h', r) →
      ∀ n, n < h.length → h'[n]? = h[n]?) ∧
    (∀ (h : Heap α) (a b : Nat) (h' : Heap α) (r : Nat), mul h a b = some (h', r) →
      ∀ n, n < h.length → h'[n]? = h[n]?) ∧
    (∀ (h : Heap α) (x : Nat) (h' : Heap α) (r : Nat), sigmoid exp h x = some (h', r) →
      ∀ n, n < h.length → h'[n]? = h[n]?) ∧
    (∀ (fuel : Nat) (h : Heap α) (r : Nat) (s : α) (h' : Heap α),
      backward fuel h r s = some h' → SameShape h h') ∧
    (∀ (h : Heap α) (l : List Nat), SameShape h (resetGrads h l)) ∧
    (∀ (h : Heap α), 9 ≤ h.length →
      ∃ h', update h mainParams = some h' ∧ h'.length = h.length ∧
        ∀ (n : Nat) (t : Tensor α), h[n]? = some t →
          ∃ t', h'[n]? = some t' ∧ t'.parents = t.parents ∧ t'.local_grads = t.local_grads ∧
            t'.grad = t.grad ∧
            t'.value = if n < 9 then t.value - lr * t.grad else t.value) := by
  refine ⟨?_, ?_, ?_, ?_, sameShape_backward, sameShape_resetGrads, ?_⟩
  · intro h v n hn
    exact List.getElem?_append_left hn
  · intro h a b h' r hadd n hn
    obtain ⟨t, rfl⟩ := add_eq_append h a b h' r hadd
    exact List.getElem?_append_left hn
  · intro h a b h' r hmul n hn
    obtain ⟨t, rfl⟩ := mul_eq_append h a b h' r hmul
    exact List.getElem?_append_left hn
  · intro h x h' r hs n hn
    obtain ⟨t, rfl⟩ := sigmoid_eq_append exp h x h' r hs
    exact List.getElem?_append_left hn
  · intro h hlen
    obtain ⟨h', hup, hl, hnodes⟩ := update_frame h hlen
    exact ⟨h', hup, hl, fun n t ht => ⟨_, hnodes n t ht, rfl, rfl, rfl, rfl⟩⟩

/-- The output node of the graph built by the forward pass of `main` holds the
closed-form network output. -/
theorem builtValue_iterOps {α : Type} [Field α] (exp : α → α)
    (w1 w2 w3 w4 b1 b2 w5 w6 b3 x1 x2 : α) :
    builtValue exp (iterOps [w1, w2, w3, w4, b1, b2, w5, w6, b3] x1 x2) 25 =
      netOutput exp w1 w2 w3 w4 b1 b2 w5 w6 b3 x1 x2 := by
  simp only [builtValue, make_shared, mul, add, sigmoid, Tensor.new,
    build, iterOps, step, List.map, List.cons_append, List.nil_append, List.foldlM,
    List.length_nil, List.length_cons, List.length_append, List.append_assoc,
    List.getElem?_cons_zero, List.getElem?_cons_succ, Option.bind, Option.map,
    Option.some.injEq, Prod.mk.injEq, sigmoidNode_eq, mulNode_eq, addNode_eq,
    List.getElem?_append, Option.bind_eq_bind, Option.some_bind]
  simp [valueAt, netOutput, logistic]

/-- The loss of `main` as a function of the nine parameters, in closed form. -/
theorem lossAt_closed_form {α : Type} [Field α] (exp : α → α)
    (w1 w2 w3 w4 b1 b2 w5 w6 b3 x1 x2 y : α) :
    lossAt exp [w1, w2, w3, w4, b1, b2, w5, w6, b3] x1 x2 y =
      0.5 * (netOutput exp w1 w2 w3 w4 b1 b2 w5 w6 b3 x1 x2 - y) ^ 2 := by
  rw [lossAt_eq exp [w1, w2, w3, w4, b1, b2, w5, w6, b3] rfl, builtValue_iterOps]
  simp only [lossOf]
  ring

/-- C20 (the training step is gradient descent on squared error): in a training
iteration of `main` on parameters `w1, ..., b3` (any grads left over), inputs
`(x1, x2)` and target `y`, the reset, the forward pass, `backward` on `o1` with seed
`o1.value - y` and the update all return; the forward pass builds the graph whose
output value is `o = sigmoid(sigmoid(x1*w1 + x2*w2 + b1)*w5 +
sigmoid(x1*w3 + x2*w4 + b2)*w6 + b3)`; after `backward` the grad of each parameter
is the partial derivative of `loss = 0.5 * (o - y)^2` with respect to that
parameter at the pre-update values, and the update leaves `value - 0.5 * grad` in
each parameter. The heap at the end of the loop body is again nine parameter
leaves. -/
theorem training_step_gradient (w1 w2 w3 w4 b1 b2 w5 w6 b3 : ℝ) (g : Nat → ℝ)
    (x1 x2 y : ℝ) :
    ∃ h1 o1 h2 h3,
      forward Real.exp
        (resetGrads (paramHeap [w1, w2, w3, w4, b1, b2, w5, w6, b3] 0 g) mainParams.resetList)
        mainParams x1 x2 = some (h1, o1) ∧
      build Real.exp (iterOps [w1, w2, w3, w4, b1, b2, w5, w6, b3] x1 x2) = some h1 ∧
      o1 = 25 ∧
      valueAt h1 o1 = netOutput Real.exp w1 w2 w3 w4 b1 b2 w5 w6 b3 x1 x2 ∧
      (∀ fuel, 25 < fuel → backward fuel h1 o1 (valueAt h1 o1 - y) = some h2 ∧
        trainStep Real.exp fuel (paramHeap [w1, w2, w3, w4, b1, b2, w5, w6, b3] 0 g) mainParams
          x1 x2 y = some (h3.take 9)) ∧
      update h2 mainParams = some h3 ∧
      (∃ vs' g', vs'.length = 9 ∧ h3.take 9 = paramHeap vs' 0 g') ∧
      (∀ o : ℝ, lossOf o y = 0.5 * (o - y) ^ 2) ∧
      (∀ v1 v2 v3 v4 v5 v6 v7 v8 v9 : ℝ,
        lossAt Real.exp [v1, v2, v3, v4, v5, v6, v7, v8, v9] x1 x2 y =
          0.5 * (netOutput Real.exp v1 v2 v3 v4 v5 v6 v7 v8 v9 x1 x2 - y) ^ 2) ∧
      (∀ k, k < 9 → ∃ v, [w1, w2, w3, w4, b1, b2, w5, w6, b3][k]? = some v ∧ valueAt h1 k = v ∧
        HasDerivAt
          (fun t => lossAt Real.exp ([w1, w2, w3, w4, b1, b2, w5, w6, b3].set k t) x1 x2 y)
          (gradAt h2 k) v ∧
        valueAt h3 k = v - 0.5 * gradAt h2 k) ∧
      (HasDerivAt (fun t => 0.5 * (netOutput Real.exp t w2 w3 w4 b1 b2 w5 w6 b3 x1 x2 - y) ^ 2)
          (gradAt h2 mainParams.w1) w1 ∧
        HasDerivAt (fun t => 0.5 * (netOutput Real.exp w1 t w3 w4 b1 b2 w5 w6 b3 x1 x2 - y) ^ 2)
          (gradAt h2 mainParams.w2) w2 ∧
        HasDerivAt (fun t => 0.5 * (netOutput Real.exp w1 w2 t w4 b1 b2 w5 w6 b3 x1 x2 - y) ^ 2)
          (gradAt h2 mainParams.w3) w3 ∧
        HasDerivAt (fun t => 0.5 * (netOutput Real.exp w1 w2 w3 t b1 b2 w5 w6 b3 x1 x2 - y) ^ 2)
          (gradAt h2 mainParams.w4) w4 ∧
        HasDerivAt (fun t => 0.5 * (netOutput Real.exp w1 w2 w3 w4 t b2 w5 w6 b3 x1 x2 - y) ^ 2)
          (gradAt h2 mainParams.b1) b1 ∧
        HasDerivAt (fun t => 0.5 * (netOutput Real.exp w1 w2 w3 w4 b1 t w5 w6 b3 x1 x2 - y) ^ 2)
          (gradAt h2 mainParams.b2) b2 ∧
        HasDerivAt (fun t => 0.5 * (netOutput Real.exp w1 w2 w3 w4 b1 b2 t w6 b3 x1 x2 - y) ^ 2)
          (gradAt h2 mainParams.w5) w5 ∧
        HasDerivAt (fun t => 0.5 * (netOutput Real.exp w1 w2 w3 w4 b1 b2 w5 t b3 x1 x2 - y) ^ 2)
          (gradAt h2 mainParams.w6) w6 ∧
        HasDerivAt (fun t => 0.5 * (netOutput Real.exp w1 w2 w3 w4 b1 b2 w5 w6 t x1 x2 - y) ^ 2)
          (gradAt h2 mainParams.b3) b3) ∧
      (valueAt h3 mainParams.w1 = w1 - 0.5 * gradAt h2 mainParams.w1 ∧
        valueAt h3 mainParams.w2 = w2 - 0.5 * gradAt h2 mainParams.w2 ∧
        valueAt h3 mainParams.w3 = w3 - 0.5 * gradAt h2 mainParams.w3 ∧
        valueAt h3 mainParams.w4 = w4 - 0.5 * gradAt h2 mainParams.w4 ∧
        valueAt h3 mainParams.b1 = b1 - 0.5 * gradAt h2 mainParams.b1 ∧
        valueAt h3 mainParams.b2 = b2 - 0.5 * gradAt h2 mainParams.b2 ∧
        valueAt h3 mainParams.w5 = w5 - 0.5 * gradAt h2 mainParams.w5 ∧
        valueAt h3 mainParams.w6 = w6 - 0.5 * gradAt h2 mainParams.w6 ∧
        valueAt h3 mainParams.b3 = b3 - 0.5 * gradAt h2 mainParams.b3) := by
  obtain ⟨h1, h2, h3, hH, hfw, hbw, hup, hinv, hk⟩ :=
    trainStep_spec [w1, w2, w3, w4, b1, b2, w5, w6, b3] rfl g x1 x2 y
  have hval : valueAt h1 25 = netOutput Real.exp w1 w2 w3 w4 b1 b2 w5 w6 b3 x1 x2 := by
    rw [← builtValue_eq Real.exp _ h1 hH, builtValue_iterOps]
  have hd : ∀ (k : Nat) (hk9 : k < 9) (v : ℝ) (f : ℝ → ℝ),
      [w1, w2, w3, w4, b1, b2, w5, w6, b3][k]? = some v →
      (∀ t, lossAt Real.exp ([w1, w2, w3, w4, b1, b2, w5, w6, b3].set k t) x1 x2 y = f t) →
      HasDerivAt f (gradAt h2 k) v ∧ valueAt h3 k = v - 0.5 * gradAt h2 k := by
    intro k hk9 v f hv hf
    obtain ⟨v', hv', _, _, _, hder, hv3⟩ := hk k hk9
    rw [hv] at hv'
    cases hv'
    have hfun : (fun t => lossAt Real.exp ([w1, w2, w3, w4, b1, b2, w5, w6, b3].set k t)
        x1 x2 y) = f := funext hf
    rw [hfun] at hder
    exact ⟨hder, hv3⟩
  have e0 := hd 0 (by decide) w1 _ rfl (fun t => lossAt_closed_form Real.exp t w2 w3 w4 b1 b2 w5 w6 b3 x1 x2 y)
  have e1 := hd 1 (by decide) w2 _ rfl (fun t => lossAt_closed_form Real.exp w1 t w3 w4 b1 b2 w5 w6 b3 x1 x2 y)
  have e2 := hd 2 (by decide) w3 _ rfl (fun t => lossAt_closed_form Real.exp w1 w2 t w4 b1 b2 w5 w6 b3 x1 x2 y)
  have e3 := hd 3 (by decide) w4 _ rfl (fun t => lossAt_closed_form Real.exp w1 w2 w3 t b1 b2 w5 w6 b3 x1 x2 y)
  have e4 := hd 4 (by decide) b1 _ rfl (fun t => lossAt_closed_form Real.exp w1 w2 w3 w4 t b2 w5 w6 b3 x1 x2 y)
  have e5 := hd 5 (by decide) b2 _ rfl (fun t => lossAt_closed_form Real.exp w1 w2 w3 w4 b1 t w5 w6 b3 x1 x2 y)
  have e6 := hd 6 (by decide) w5 _ rfl (fun t => lossAt_closed_form Real.exp w1 w2 w3 w4 b1 b2 t w6 b3 x1 x2 y)
  have e7 := hd 7 (by decide) w6 _ rfl (fun t => lossAt_closed_form Real.exp w1 w2 w3 w4 b1 b2 w5 t b3 x1 x2 y)
  have e8 := hd 8 (by decide) b3 _ rfl (fun t => lossAt_closed_form Real.exp w1 w2 w3 w4 b1 b2 w5 w6 t x1 x2 y)
  refine ⟨h1, 25, h2, h3, hfw, hH, rfl, hval, hbw, hup, hinv, ?_,
    fun v1 v2 v3 v4 v5 v6 v7 v8 v9 => lossAt_closed_form Real.exp v1 v2 v3 v4 v5 v6 v7 v8 v9 x1 x2 y,
    ?_, ⟨e0.1, e1.1, e2.1, e3.1, e4.1, e5.1, e6.1, e7.1, e8.1⟩,
    ⟨e0.2, e1.2, e2.2, e3.2, e4.2, e5.2, e6.2, e7.2, e8.2⟩⟩
  · intro o
    simp only [lossOf]
    ring
  · intro k hk9
    obtain ⟨v, hv, hv1, _, _, hd, hv3⟩ := hk k hk9
    exact ⟨v, hv, hv1, hd, hv3⟩

end Xornn
